import Mathlib

/-!
Verification development for the Code-Native repository.

The main object is the collaboration relay of
`apps/backend/src/services/websocket.ts`: a shallow embedding of its room
map, per-connection closure state (`currentRoomId`, `currentUser`, the set
of socket.io rooms the socket has joined) and its event handlers as a pure
step function on an explicit state, emitting the messages each handler
sends.  Randomness (`Math.random` in `generateColor`) and the server clock
(`Date.now()`) are supplied as oracle parameters of the events.

Later sections embed the code-execution sandbox (`ExecutorService`) and the
recursive file-tree builder (`buildFileTree` of the files router).
-/

/-! ### Association-list maps

JavaScript `Map` objects keep insertion order; `set` on an existing key
updates the entry in place, `delete` removes it, `values()` iterates in
insertion order.  We model them as association lists with exactly these
operations. -/

/-- Lookup the first binding of `k` (JS `Map.get`). -/
def alLookup {α : Type} (k : String) : List (String × α) → Option α
  | [] => none
  | (k', v) :: rest => if k' = k then some v else alLookup k rest

/-- JS `Map.set`: replace the binding of `k` in place, or append a new one. -/
def alSet {α : Type} (k : String) (v : α) : List (String × α) → List (String × α)
  | [] => [(k, v)]
  | (k', v') :: rest => if k' = k then (k, v) :: rest else (k', v') :: alSet k v rest

/-- JS `Map.delete`: remove the binding of `k`. -/
def alDelete {α : Type} (k : String) (l : List (String × α)) : List (String × α) :=
  l.filter (fun p => p.1 != k)

theorem alLookup_alSet_self {α : Type} (k : String) (v : α) (l : List (String × α)) :
    alLookup k (alSet k v l) = some v := by
  induction l with
  | nil => simp [alSet, alLookup]
  | cons p rest ih =>
    obtain ⟨k', v'⟩ := p
    by_cases h : k' = k <;> simp [alSet, alLookup, h, ih]

theorem alLookup_alSet_ne {α : Type} (k k' : String) (v : α) (l : List (String × α))
    (h : k ≠ k') : alLookup k' (alSet k v l) = alLookup k' l := by
  induction l with
  | nil => simp [alSet, alLookup, h]
  | cons p rest ih =>
    obtain ⟨k'', v''⟩ := p
    by_cases h2 : k'' = k
    · subst h2
      simp [alSet, alLookup, h]
    · simp only [alSet, if_neg h2]
      by_cases h3 : k'' = k' <;> simp [alLookup, h3, ih]

theorem alLookup_alDelete_self {α : Type} (k : String) (l : List (String × α)) :
    alLookup k (alDelete k l) = none := by
  induction l with
  | nil => simp [alDelete, alLookup]
  | cons p rest ih =>
    obtain ⟨k', v'⟩ := p
    by_cases h : k' = k
    · subst h
      simpa [alDelete, alLookup] using ih
    · simpa [alDelete, alLookup, h] using ih

theorem alLookup_alDelete_ne {α : Type} (k k' : String) (l : List (String × α))
    (h : k ≠ k') : alLookup k' (alDelete k l) = alLookup k' l := by
  induction l with
  | nil => simp [alDelete, alLookup]
  | cons p rest ih =>
    obtain ⟨k'', v''⟩ := p
    by_cases h2 : k'' = k
    · subst h2
      have hne : k'' ≠ k' := h
      have hb : (k'' != k'') = false := by simp
      simp only [alDelete, List.filter_cons, hb, if_neg Bool.false_ne_true]
      simp only [alDelete] at ih
      rw [ih]
      simp [alLookup, hne]
    · have hb : (k'' != k) = true := by simp [h2]
      by_cases h3 : k'' = k'
      · subst h3
        simp [alDelete, List.filter_cons, hb, alLookup]
      · simp only [alDelete, List.filter_cons, hb, if_pos rfl]
        simp only [alDelete] at ih
        simp [alLookup, h3, ih]

theorem mem_keys_of_alLookup {α : Type} {k : String} {v : α} {l : List (String × α)}
    (h : alLookup k l = some v) : (k, v) ∈ l := by
  induction l with
  | nil => simp [alLookup] at h
  | cons p rest ih =>
    obtain ⟨k', v'⟩ := p
    by_cases h2 : k' = k
    · subst h2
      simp [alLookup] at h
      simp [h]
    · simp [alLookup, h2] at h
      exact List.mem_cons_of_mem _ (ih h)

theorem alLookup_isSome_of_mem {α : Type} {k : String} {v : α} {l : List (String × α)}
    (h : (k, v) ∈ l) : (alLookup k l).isSome := by
  induction l with
  | nil => simp at h
  | cons p rest ih =>
    obtain ⟨k', v'⟩ := p
    rcases List.mem_cons.mp h with h1 | h1
    · cases h1
      simp [alLookup]
    · by_cases h2 : k' = k <;> simp [alLookup, h2, ih h1]

/-! ### Relay data model (`websocket.ts`) -/

/-- `CollabUser` from `@code-native/shared`, as used by the relay:
`{ id, name, color, cursor? }`. -/
structure CollabUser where
  id : String
  name : String
  color : String
  cursor : Option (Nat × Nat)
deriving Repr, DecidableEq

/-- `interface Room` of `websocket.ts`: id, fileId, users map, content. -/
structure Room where
  id : String
  fileId : String
  users : List (String × CollabUser)
  content : String
deriving Repr, DecidableEq

/-- One live socket connection: its transport id, the handler closure's
`currentRoomId` and `currentUser` variables, and the set of socket.io rooms
the socket has joined (`socket.join` / `socket.leave`). -/
structure Conn where
  sockId : String
  currentRoomId : Option String
  currentUser : Option CollabUser
  joinedRooms : List String
deriving Repr, DecidableEq

/-- The relay's whole state: the module-level `rooms` map plus the live
connections with their closure state. -/
structure RelayState where
  rooms : List (String × Room)
  conns : List Conn
deriving Repr, DecidableEq

/-- Empty relay: no rooms, no connections. -/
def relayInit : RelayState := ⟨[], []⟩

/-- The fixed color palette of `generateColor`. -/
def relayColors : List String :=
  ["#FF6B6B", "#4ECDC4", "#45B7D1", "#96E6A1",
   "#DDA0DD", "#F7DC6F", "#BB8FCE", "#85C1E9",
   "#F8B500", "#00CED1", "#FF69B4", "#90EE90"]

/-- `generateColor`: `colors[Math.floor(Math.random() * colors.length)]`.
The random draw is modelled by the oracle value `k`; `Math.floor` of a
uniform draw times the length always lands in `[0, length)`, which the
modulus reflects. -/
def generateColor (k : Nat) : String :=
  relayColors.getD (k % relayColors.length) ""

/-- Events delivered to the relay.  `connect`/`disconnect` are the transport
callbacks; the rest are the five application events.  `colorIdx` is the
oracle for `Math.random` in the join handler and `now` the oracle for
`Date.now()` in the code-change handler. -/
inductive Event where
  | connect (sockId : String)
  | joinRoom (sockId roomId fileId userName : String) (colorIdx : Nat)
  | leaveRoomEv (sockId : String)
  | cursorMove (sockId : String) (line column : Nat)
  | codeChange (sockId : String) (content : String) (now : Nat)
  | syncRequest (sockId : String)
  | disconnect (sockId : String)
deriving Repr, DecidableEq

/-- Payloads the relay emits. -/
inductive Payload where
  | userJoined (user : CollabUser) (users : List CollabUser)
  | syncResponse (content : String) (users : List CollabUser)
  | userLeft (userId : String) (users : List CollabUser)
  | cursorMoved (userId : String) (line column : Nat)
  | codeChanged (content : String) (userId : String) (timestamp : Nat)
deriving Repr, DecidableEq

/-- One delivered message: the destination socket, the room whose state the
payload samples (the argument of `socket.to(roomId)`, or the requester's
current room for the two sync responses), and the payload. -/
structure Msg where
  dest : String
  room : String
  payload : Payload
deriving Repr, DecidableEq

/-- Find the live connection with the given socket id. -/
def findConn (cid : String) (cs : List Conn) : Option Conn :=
  cs.find? (fun cn => cn.sockId == cid)

/-- Apply `f` to the connection with the given socket id. -/
def updateConn (cid : String) (f : Conn → Conn) (cs : List Conn) : List Conn :=
  cs.map (fun cn => if cn.sockId == cid then f cn else cn)

/-- `socket.to(roomId).emit(...)`: deliver to every live socket that has
joined the socket.io room `roomId`, except the sender. -/
def broadcastTo (cs : List Conn) (roomId sender : String) (p : Payload) : List Msg :=
  (cs.filter (fun cn => cn.joinedRooms.contains roomId && cn.sockId != sender)).map
    (fun cn => ⟨cn.sockId, roomId, p⟩)

/-- The standalone `leaveRoom(socket, roomId, user)` function: delete the
user from the room's map, notify the others, delete the room when it became
empty, and `socket.leave(roomId)`.  Note that it does not reset the
caller's `currentRoomId`/`currentUser` closure variables. -/
def leaveRoomFn (s : RelayState) (cid rid : String) : RelayState × List Msg :=
  match alLookup rid s.rooms with
  | some rm =>
    let rm' : Room := { rm with users := alDelete cid rm.users }
    let msgs := broadcastTo s.conns rid cid (.userLeft cid (rm'.users.map Prod.snd))
    let rooms' := if rm'.users.isEmpty then alDelete rid s.rooms else alSet rid rm' s.rooms
    let conns' := updateConn cid
      (fun cn => { cn with joinedRooms := cn.joinedRooms.filter (· != rid) }) s.conns
    (⟨rooms', conns'⟩, msgs)
  | none =>
    let conns' := updateConn cid
      (fun cn => { cn with joinedRooms := cn.joinedRooms.filter (· != rid) }) s.conns
    (⟨s.rooms, conns'⟩, [])

/-- The user record the join handler builds for the joining connection. -/
def joinUser (cid uname : String) (k : Nat) : CollabUser :=
  ⟨cid, uname, generateColor k, none⟩

/-- The room the join handler operates on: the existing one, or the lazily
created `{ id, fileId, users: new Map(), content: '' }`. -/
def joinBase (s : RelayState) (rid fid : String) : Room :=
  match alLookup rid s.rooms with
  | some r => r
  | none => ⟨rid, fid, [], ""⟩

/-- The body of the `JOIN_ROOM` handler (after the closure variables are
set): insert the user, `socket.join`, notify the others, sync the joiner. -/
def joinRoomFn (s : RelayState) (cid rid fid uname : String) (k : Nat) :
    RelayState × List Msg :=
  let user := joinUser cid uname k
  let base := joinBase s rid fid
  let room' : Room := { base with users := alSet cid user base.users }
  let rooms' := alSet rid room' s.rooms
  let conns' := updateConn cid (fun cn =>
    { cn with currentRoomId := some rid, currentUser := some user,
              joinedRooms :=
                if cn.joinedRooms.contains rid then cn.joinedRooms
                else cn.joinedRooms ++ [rid] }) s.conns
  (⟨rooms', conns'⟩,
    broadcastTo conns' rid cid (.userJoined user (room'.users.map Prod.snd)) ++
      [⟨cid, rid, .syncResponse room'.content (room'.users.map Prod.snd)⟩])

/-- The body of the `CURSOR_MOVE` handler when the connection is in room
`rid` with user `u`: mutate the (shared) user object's cursor — visible
both through the closure and, when still present, through the room's users
map — and broadcast to the others. -/
def cursorMoveFn (s : RelayState) (cid : String) (u : CollabUser) (line col : Nat)
    (rid : String) : RelayState × List Msg :=
  let u' : CollabUser := { u with cursor := some (line, col) }
  let conns' := updateConn cid (fun c => { c with currentUser := some u' }) s.conns
  let rooms' :=
    match alLookup rid s.rooms with
    | some rm =>
      match alLookup cid rm.users with
      | some entry =>
        alSet rid { rm with users := alSet cid { entry with cursor := some (line, col) } rm.users } s.rooms
      | none => s.rooms
    | none => s.rooms
  (⟨rooms', conns'⟩, broadcastTo s.conns rid cid (.cursorMoved cid line col))

/-- The body of the `CODE_CHANGE` handler once the room was found:
overwrite the content and broadcast to the others. -/
def codeChangeFn (s : RelayState) (cid rid : String) (rm : Room) (txt : String)
    (now : Nat) : RelayState × List Msg :=
  (⟨alSet rid { rm with content := txt } s.rooms, s.conns⟩,
    broadcastTo s.conns rid cid (.codeChanged txt cid now))

/-- The `disconnect` handler: run the leave effect when the closure has a
room, then the transport removes the socket (and with it its socket.io
memberships). -/
def disconnectFn (s : RelayState) (cid : String) (cn : Conn) : RelayState × List Msg :=
  let res :=
    match cn.currentRoomId, cn.currentUser with
    | some rid, some _ => leaveRoomFn s cid rid
    | _, _ => (s, [])
  ({ res.1 with conns := res.1.conns.filter (fun c => c.sockId != cid) }, res.2)

/-- One event against the relay state, returning the new state and the
messages sent, mirroring the handlers of `setupWebSocket` clause by clause.
Events from a socket id with no live connection cannot occur on the real
transport and are no-ops here. -/
def relayStep (s : RelayState) (e : Event) : RelayState × List Msg :=
  match e with
  | .connect cid =>
    if (findConn cid s.conns).isSome then (s, [])
    else ({ s with conns := s.conns ++ [⟨cid, none, none, []⟩] }, [])
  | .joinRoom cid rid fid uname k =>
    match findConn cid s.conns with
    | none => (s, [])
    | some _ => joinRoomFn s cid rid fid uname k
  | .leaveRoomEv cid =>
    match findConn cid s.conns with
    | some cn =>
      match cn.currentRoomId, cn.currentUser with
      | some rid, some _ => leaveRoomFn s cid rid
      | _, _ => (s, [])
    | none => (s, [])
  | .cursorMove cid line col =>
    match findConn cid s.conns with
    | some cn =>
      match cn.currentRoomId, cn.currentUser with
      | some rid, some u => cursorMoveFn s cid u line col rid
      | _, _ => (s, [])
    | none => (s, [])
  | .codeChange cid txt now =>
    match findConn cid s.conns with
    | some cn =>
      match cn.currentRoomId with
      | some rid =>
        match alLookup rid s.rooms with
        | some rm => codeChangeFn s cid rid rm txt now
        | none => (s, [])
      | none => (s, [])
    | none => (s, [])
  | .syncRequest cid =>
    match findConn cid s.conns with
    | some cn =>
      match cn.currentRoomId with
      | some rid =>
        match alLookup rid s.rooms with
        | some rm => (s, [⟨cid, rid, .syncResponse rm.content (rm.users.map Prod.snd)⟩])
        | none => (s, [])
      | none => (s, [])
    | none => (s, [])
  | .disconnect cid =>
    match findConn cid s.conns with
    | some cn => disconnectFn s cid cn
    | none => (s, [])

/-- State after one event. -/
def step1 (s : RelayState) (e : Event) : RelayState := (relayStep s e).1

/-- Messages emitted by one event. -/
def stepMsgs (s : RelayState) (e : Event) : List Msg := (relayStep s e).2

/-- Run a list of events from a state. -/
def runFrom (s : RelayState) : List Event → RelayState
  | [] => s
  | e :: rest => runFrom (step1 s e) rest

/-- Run a list of events from the empty relay. -/
def relayRun (evs : List Event) : RelayState := runFrom relayInit evs

/-! ### File tree builder (files router, `buildFileTree`) -/

/-- An on-disk directory entry as `readdir(..., withFileTypes)` reports it. -/
inductive FSEntry where
  | file (name : String)
  | dir (name : String) (entries : List FSEntry)
deriving Repr

/-- `FileNode` of `@code-native/shared`: `children` is present exactly on
folders. -/
inductive FileNode where
  | file (id name path : String)
  | folder (id name path : String) (children : List FileNode)
deriving Repr

def FileNode.name : FileNode → String
  | .file _ n _ => n
  | .folder _ n _ _ => n

/-- 0 for folders, 1 for files: the comparator puts folders first. -/
def FileNode.rank : FileNode → Nat
  | .folder _ _ _ _ => 0
  | .file _ _ _ => 1

def FileNode.children : FileNode → List FileNode
  | .file _ _ _ => []
  | .folder _ _ _ cs => cs

/-- The `ignoredDirs` constant of `buildFileTree`. -/
def ignoredDirs : List String :=
  ["node_modules", ".git", "dist", "dist-electron", ".vite", "__pycache__"]

/-- The sort comparator of `buildFileTree` as a relation: folders before
files, ties broken by ascending name (`localeCompare`, modelled by the
lexicographic order on strings). -/
def nodeLe (a b : FileNode) : Prop :=
  a.rank < b.rank ∨ (a.rank = b.rank ∧ a.name ≤ b.name)

instance : DecidableRel nodeLe := fun a b => by
  unfold nodeLe
  infer_instance

instance : IsTotal FileNode nodeLe where
  total a b := by
    rcases Nat.lt_trichotomy a.rank b.rank with h | h | h
    · exact Or.inl (Or.inl h)
    · rcases le_total a.name b.name with h2 | h2
      · exact Or.inl (Or.inr ⟨h, h2⟩)
      · exact Or.inr (Or.inr ⟨h.symm, h2⟩)
    · exact Or.inr (Or.inl h)

instance : IsTrans FileNode nodeLe where
  trans a b c hab hbc := by
    rcases hab with h1 | ⟨h1, h1n⟩ <;> rcases hbc with h2 | ⟨h2, h2n⟩
    · exact Or.inl (h1.trans h2)
    · exact Or.inl (h2 ▸ h1)
    · exact Or.inl (h1 ▸ h2)
    · exact Or.inr ⟨h1.trans h2, h1n.trans h2n⟩

/-- `nodes.sort(comparator)` at the end of `buildFileTree`. -/
def sortNodes (l : List FileNode) : List FileNode :=
  List.insertionSort nodeLe l

/-- The per-entry id: `idPre ? idPre-i : i`. -/
def mkId (p : String) (i : Nat) : String :=
  if p = "" then toString i else p ++ "-" ++ toString i

/-- `join(dirPath, entry.name)`. -/
def pathJoin (d n : String) : String := d ++ "/" ++ n

/-- The loop body of `buildFileTree`: walk the entries with their index,
skip ignored directories, recurse into the others (each recursive level is
itself sorted on return). -/
def buildRaw : List FSEntry → String → String → Nat → List FileNode
  | [], _, _, _ => []
  | .file nm :: rest, d, p, i =>
      .file (mkId p i) nm (pathJoin d nm) :: buildRaw rest d p (i + 1)
  | .dir nm cs :: rest, d, p, i =>
      (if nm ∈ ignoredDirs then []
       else [.folder (mkId p i) nm (pathJoin d nm)
               (sortNodes (buildRaw cs (pathJoin d nm) (mkId p i) 0))]) ++
        buildRaw rest d p (i + 1)
termination_by l _ _ _ => sizeOf l
decreasing_by all_goals (simp_wf <;> omega)

/-- `buildFileTree(dirPath)`: build and sort the listing of `dirPath`. -/
def buildFileTree (d : String) (l : List FSEntry) : List FileNode :=
  sortNodes (buildRaw l d "" 0)

mutual

/-- No folder named after an ignored directory occurs in this node. -/
def nodeClean : FileNode → Bool
  | .file _ _ _ => true
  | .folder _ nm _ cs => !(ignoredDirs.contains nm) && forestClean cs

/-- `nodeClean` for every node of the forest. -/
def forestClean : List FileNode → Bool
  | [] => true
  | n :: t => nodeClean n && forestClean t

end

mutual

/-- Every directory's children in this node are sorted by the comparator:
folders before files, names ascending within each kind. -/
def nodeOrganized : FileNode → Prop
  | .file _ _ _ => True
  | .folder _ _ _ cs => List.Pairwise nodeLe cs ∧ forestOrganized cs

/-- `nodeOrganized` for every node of the forest. -/
def forestOrganized : List FileNode → Prop
  | [] => True
  | n :: t => nodeOrganized n ∧ forestOrganized t

end

theorem forestClean_iff (l : List FileNode) :
    forestClean l = true ↔ ∀ n ∈ l, nodeClean n = true := by
  induction l with
  | nil => simp [forestClean]
  | cons n t ih => simp [forestClean, ih]

theorem forestOrganized_iff (l : List FileNode) :
    forestOrganized l ↔ ∀ n ∈ l, nodeOrganized n := by
  induction l with
  | nil => simp [forestOrganized]
  | cons n t ih => simp [forestOrganized, ih]

theorem sortNodes_sorted (l : List FileNode) : List.Pairwise nodeLe (sortNodes l) :=
  List.sorted_insertionSort nodeLe l

theorem mem_sortNodes {l : List FileNode} {n : FileNode} : n ∈ sortNodes l ↔ n ∈ l :=
  List.mem_insertionSort nodeLe

theorem forestClean_sortNodes (l : List FileNode) :
    forestClean (sortNodes l) = forestClean l := by
  by_cases h : forestClean l = true
  · rw [h]
    rw [forestClean_iff] at h ⊢
    intro n hn
    exact h n (mem_sortNodes.mp hn)
  · rw [Bool.not_eq_true] at h
    rw [h]
    rw [Bool.eq_false_iff]
    intro hc
    rw [forestClean_iff] at hc
    rw [Bool.eq_false_iff] at h
    apply h
    rw [forestClean_iff]
    intro n hn
    exact hc n (mem_sortNodes.mpr hn)

theorem buildRaw_clean (l : List FSEntry) (d p : String) (i : Nat) :
    forestClean (buildRaw l d p i) = true := by
  induction l, d, p, i using buildRaw.induct with
  | case1 d p i => simp [buildRaw, forestClean]
  | case2 nm rest d p i ih => simp [buildRaw, forestClean, nodeClean, ih]
  | case3 nm cs rest d p i ih1 ih2 =>
    by_cases h : nm ∈ ignoredDirs
    · simp [buildRaw, h, ih2]
    · have hcontains : ignoredDirs.contains nm = false := by simpa using h
      simp [buildRaw, h, forestClean, nodeClean, hcontains, ih2,
        forestClean_sortNodes, ih1]

theorem buildRaw_organized (l : List FSEntry) (d p : String) (i : Nat) :
    ∀ n ∈ buildRaw l d p i, nodeOrganized n := by
  induction l, d, p, i using buildRaw.induct with
  | case1 d p i => simp [buildRaw]
  | case2 nm rest d p i ih =>
    intro n hn
    rcases List.mem_cons.mp (by simpa [buildRaw] using hn) with h | h
    · subst h
      simp [nodeOrganized]
    · exact ih n h
  | case3 nm cs rest d p i ih1 ih2 =>
    intro n hn
    by_cases h : nm ∈ ignoredDirs
    · exact ih2 n (by simpa [buildRaw, h] using hn)
    · rcases List.mem_cons.mp (by simpa [buildRaw, h] using hn) with h2 | h2
      · subst h2
        refine ⟨sortNodes_sorted _, ?_⟩
        rw [forestOrganized_iff]
        intro c hc
        exact ih1 c (mem_sortNodes.mp hc)
      · exact ih2 n h2

/-- C8: the file tree built by `buildFileTree` never contains, at any
depth, a folder whose name is one of the ignored conventional
build/dependency directory names (`node_modules`, `.git`, `dist`,
`dist-electron`, `.vite`, `__pycache__`). -/
theorem buildFileTree_excludes_ignored (d : String) (l : List FSEntry) :
    forestClean (buildFileTree d l) = true := by
  unfold buildFileTree
  rw [forestClean_sortNodes]
  exact buildRaw_clean l d "" 0

/-- C10: in every directory listing `buildFileTree` returns, each
directory's children (and the top-level listing itself) are ordered with
all folders before all files and, within each kind, ascending by name:
every children list is pairwise `nodeLe`-ordered, at every depth. -/
theorem buildFileTree_children_sorted (d : String) (l : List FSEntry) :
    List.Pairwise nodeLe (buildFileTree d l) ∧ forestOrganized (buildFileTree d l) := by
  constructor
  · exact sortNodes_sorted _
  · rw [forestOrganized_iff]
    intro n hn
    exact buildRaw_organized l d "" 0 n (mem_sortNodes.mp hn)

/-! ### Code execution sandbox (`ExecutorService`)

`runProcess` spawns the interpreter, arms a `setTimeout(timeout)` that sets
`killed = true` and kills the process, and resolves (never rejects) on the
`close` or `error` event.  The embedding takes as oracle how the process
run ends: `closed` with the (possibly null) exit code and collected output,
or `errored` for a spawn failure.  The event loop fires the kill timer
exactly when the process has not closed within `timeoutMs`, which the
`runtimeMs > timeoutMs` comparison models.  `executeNode` writes the temp
source file, runs, and unlinks the file in a `finally` block; the file
system is modelled as the list of existing paths. -/

/-- How the spawned process run ends: `close(exitCode)` (null exit code for
a signal-killed process) or a spawn `error`. -/
inductive ProcEnd where
  | closed (exitCode : Option Nat) (stdout stderr : String)
  | errored (msg : String)
deriving Repr, DecidableEq

/-- `ExecuteResponse` of `@code-native/shared` as `runProcess` fills it. -/
structure ExecuteResponse where
  stdout : String
  stderr : String
  exitCode : Nat
  executionTime : Nat
  error : Option String
deriving Repr, DecidableEq

/-- `ExecutorService.runProcess`: `killed` is true exactly when the timer
fired before the process closed on its own. -/
def runProcess (timeoutMs runtimeMs : Nat) (pe : ProcEnd) (elapsed : Nat) : ExecuteResponse :=
  let killed : Bool := timeoutMs < runtimeMs
  match pe with
  | .closed ec out err =>
    ⟨out.trim, err.trim, ec.getD 1, elapsed,
      if killed then some "Execution timed out" else none⟩
  | .errored m => ⟨"", m, 1, elapsed, some m⟩

/-- `ExecutorService.executeNode`: write the temp source file, run it, and
unlink the file in the `finally` block, on every exit path.  Returns the
structured result together with the file system after the call. -/
def executeNode (fs : List String) (tempDir fname : String)
    (timeoutMs runtimeMs : Nat) (pe : ProcEnd) (elapsed : Nat) :
    ExecuteResponse × List String :=
  let filepath := tempDir ++ "/" ++ fname
  let fs1 := if fs.contains filepath then fs else fs ++ [filepath]
  let r := runProcess timeoutMs runtimeMs pe elapsed
  (r, fs1.filter (fun q => q != filepath))

/-- C7: when the spawned process exceeds the timeout, `executeNode` returns
a structured result whose `error` field carries the timed-out indication;
that indication is absent from every non-timed-out run whatever its exit
code (so a non-zero exit code is never conflated with a timeout); and on
every exit path (normal close, failing close, spawn error, timeout) the
temp source file does not remain on the file system, while no other path
is touched. -/
theorem executeNode_timeout_and_cleanup (fs : List String) (tempDir fname : String)
    (timeoutMs runtimeMs : Nat) (pe : ProcEnd) (elapsed : Nat) :
    (timeoutMs < runtimeMs → ∀ ec out err, pe = .closed ec out err →
      (executeNode fs tempDir fname timeoutMs runtimeMs pe elapsed).1.error =
        some "Execution timed out") ∧
    (runtimeMs ≤ timeoutMs → ∀ ec out err, pe = .closed ec out err →
      (executeNode fs tempDir fname timeoutMs runtimeMs pe elapsed).1.error = none) ∧
    (tempDir ++ "/" ++ fname) ∉ (executeNode fs tempDir fname timeoutMs runtimeMs pe elapsed).2 ∧
    (∀ q ∈ fs, q ≠ tempDir ++ "/" ++ fname →
      q ∈ (executeNode fs tempDir fname timeoutMs runtimeMs pe elapsed).2) ∧
    (∀ q ∈ (executeNode fs tempDir fname timeoutMs runtimeMs pe elapsed).2, q ∈ fs) := by
  refine ⟨?_, ?_, ?_, ?_, ?_⟩
  · intro ht ec out err hpe
    subst hpe
    simp [executeNode, runProcess, ht]
  · intro ht ec out err hpe
    subst hpe
    simp [executeNode, runProcess, Nat.not_lt.mpr ht]
  · intro hmem
    have := (List.mem_filter.mp hmem).2
    simp at this
  · intro q hq hne
    apply List.mem_filter.mpr
    refine ⟨?_, by simpa using hne⟩
    by_cases h : (tempDir ++ "/" ++ fname) ∈ fs <;> simp [executeNode, h, hq]
  · intro q hq
    have h1 := (List.mem_filter.mp hq).1
    have h2 := (List.mem_filter.mp hq).2
    by_cases h : (tempDir ++ "/" ++ fname) ∈ fs
    · simpa [executeNode, h] using h1
    · have h1' : q ∈ fs ++ [tempDir ++ "/" ++ fname] := by
        simpa [executeNode, h] using h1
      rcases List.mem_append.mp h1' with h3 | h3
      · exact h3
      · have heq : q = tempDir ++ "/" ++ fname := by simpa using h3
        rw [heq] at h2
        simp at h2

/-- Witness for C7 at a concrete run: a process that takes 50ms against a
30ms timeout yields the timed-out error, and the temp file is gone. -/
theorem executeNode_timeout_and_cleanup_witness :
    (30 < 50 ∧
      (executeNode ["/w/keep.txt"] "/w" "a.js" 30 50 (.closed none "" "") 51).1.error =
        some "Execution timed out") ∧
    "/w/a.js" ∉ (executeNode ["/w/keep.txt"] "/w" "a.js" 30 50 (.closed none "" "") 51).2 := by
  have h := executeNode_timeout_and_cleanup ["/w/keep.txt"] "/w" "a.js" 30 50
    (.closed none "" "") 51
  exact ⟨⟨by decide, h.1 (by decide) none "" "" rfl⟩, h.2.2.1⟩

/-! ### Association-list facts used by the relay invariants -/

theorem alLookup_alSet_cases {α : Type} {k k' : String} {v v' : α} {l : List (String × α)}
    (h : alLookup k' (alSet k v l) = some v') :
    (k' = k ∧ v' = v) ∨ (k' ≠ k ∧ alLookup k' l = some v') := by
  by_cases hk : k' = k
  · subst hk
    rw [alLookup_alSet_self] at h
    exact Or.inl ⟨rfl, (Option.some_inj.mp h).symm⟩
  · right
    refine ⟨hk, ?_⟩
    rwa [alLookup_alSet_ne _ _ _ _ (Ne.symm hk)] at h

theorem alLookup_alDelete_cases {α : Type} {k k' : String} {v' : α} {l : List (String × α)}
    (h : alLookup k' (alDelete k l) = some v') :
    k' ≠ k ∧ alLookup k' l = some v' := by
  by_cases hk : k' = k
  · subst hk
    rw [alLookup_alDelete_self] at h
    exact absurd h (by simp)
  · refine ⟨hk, ?_⟩
    rwa [alLookup_alDelete_ne _ _ _ (Ne.symm hk)] at h

theorem mem_alSet {α : Type} {p : String × α} {k : String} {v : α} {l : List (String × α)}
    (h : p ∈ alSet k v l) : p = (k, v) ∨ p ∈ l := by
  induction l with
  | nil => simpa [alSet] using h
  | cons q rest ih =>
    obtain ⟨k', v'⟩ := q
    by_cases hk : k' = k
    · subst hk
      rcases List.mem_cons.mp (by simpa [alSet] using h) with h1 | h1
      · exact Or.inl h1
      · exact Or.inr (List.mem_cons_of_mem _ h1)
    · rcases List.mem_cons.mp (by simpa [alSet, hk] using h) with h1 | h1
      · exact Or.inr (by simp [h1])
      · rcases ih h1 with h2 | h2
        · exact Or.inl h2
        · exact Or.inr (List.mem_cons_of_mem _ h2)

theorem alSet_ne_nil {α : Type} (k : String) (v : α) (l : List (String × α)) :
    alSet k v l ≠ [] := by
  cases l with
  | nil => simp [alSet]
  | cons q rest =>
    obtain ⟨k', v'⟩ := q
    by_cases hk : k' = k <;> simp [alSet, hk]

theorem keys_alSet_mem {α : Type} {x k : String} {v : α} {l : List (String × α)} :
    x ∈ (alSet k v l).map Prod.fst ↔ x = k ∨ x ∈ l.map Prod.fst := by
  induction l with
  | nil => simp [alSet]
  | cons q rest ih =>
    obtain ⟨k', v'⟩ := q
    by_cases hk : k' = k
    · subst hk
      simp [alSet]
    · simp only [alSet, if_neg hk, List.map_cons, List.mem_cons, ih]
      tauto

theorem keys_alSet_nodup {α : Type} {k : String} {v : α} {l : List (String × α)}
    (h : (l.map Prod.fst).Nodup) : ((alSet k v l).map Prod.fst).Nodup := by
  induction l with
  | nil => simp [alSet]
  | cons q rest ih =>
    obtain ⟨k', v'⟩ := q
    simp only [List.map_cons, List.nodup_cons] at h
    by_cases hk : k' = k
    · subst hk
      simpa [alSet, List.nodup_cons] using h
    · simp only [alSet, if_neg hk, List.map_cons, List.nodup_cons]
      refine ⟨?_, ih h.2⟩
      rw [keys_alSet_mem]
      rintro (h1 | h1)
      · exact hk h1
      · exact h.1 h1

theorem keys_alDelete {α : Type} (k : String) (l : List (String × α)) :
    (alDelete k l).map Prod.fst = (l.map Prod.fst).filter (fun x => x != k) := by
  induction l with
  | nil => simp [alDelete]
  | cons q rest ih =>
    obtain ⟨k', v'⟩ := q
    simp only [alDelete] at ih
    by_cases hk : k' = k <;> simp [alDelete, List.filter_cons, hk, ih]

theorem keys_alDelete_nodup {α : Type} {k : String} {l : List (String × α)}
    (h : (l.map Prod.fst).Nodup) : ((alDelete k l).map Prod.fst).Nodup := by
  rw [keys_alDelete]
  exact h.filter _

theorem mem_alDelete_subset {α : Type} {p : String × α} {k : String} {l : List (String × α)}
    (h : p ∈ alDelete k l) : p ∈ l :=
  List.mem_of_mem_filter h

theorem alSet_length_of_lookup {α : Type} {k : String} {v u : α} {l : List (String × α)}
    (h : alLookup k l = some u) : (alSet k v l).length = l.length := by
  induction l with
  | nil => simp [alLookup] at h
  | cons q rest ih =>
    obtain ⟨k', v'⟩ := q
    by_cases hk : k' = k
    · subst hk
      simp [alSet]
    · simp only [alLookup, if_neg hk] at h
      simp [alSet, hk, ih h]

/-! ### Connection-list facts -/

theorem findConn_eq_some {cid : String} {cs : List Conn} {cn : Conn}
    (h : findConn cid cs = some cn) : cn ∈ cs ∧ cn.sockId = cid := by
  refine ⟨List.mem_of_find?_eq_some h, ?_⟩
  have := List.find?_some h
  simpa using this

theorem findConn_isNone_iff {cid : String} {cs : List Conn} :
    findConn cid cs = none ↔ ∀ cn ∈ cs, cn.sockId ≠ cid := by
  unfold findConn
  rw [List.find?_eq_none]
  constructor
  · intro h cn hm he
    exact absurd (by simpa using he) (by simpa using h cn hm)
  · intro h cn hm
    simpa using h cn hm

theorem updateConn_sockIds (cid : String) (f : Conn → Conn) (cs : List Conn)
    (hf : ∀ cn, (f cn).sockId = cn.sockId) :
    (updateConn cid f cs).map Conn.sockId = cs.map Conn.sockId := by
  unfold updateConn
  rw [List.map_map]
  apply List.map_congr_left
  intro cn _
  by_cases h : cn.sockId = cid <;> simp [h, hf]

theorem mem_updateConn {cid : String} {f : Conn → Conn} {cs : List Conn} {cn' : Conn}
    (h : cn' ∈ updateConn cid f cs) :
    ∃ cn ∈ cs, cn' = if cn.sockId == cid then f cn else cn := by
  unfold updateConn at h
  rcases List.mem_map.mp h with ⟨cn, hm, he⟩
  exact ⟨cn, hm, he.symm⟩

/-! ### Room-shape invariants of every reachable relay state -/

/-- Facts that hold of every room in the map: a nonempty users map, no two
entries with the same connection id, and each stored user's `id` field
equal to its key. -/
def RoomFacts (rm : Room) : Prop :=
  rm.users ≠ [] ∧ (rm.users.map Prod.fst).Nodup ∧ ∀ p ∈ rm.users, p.2.id = p.1

/-- `RoomFacts` for every room of the state. -/
def RoomsInv (s : RelayState) : Prop :=
  ∀ rid rm, alLookup rid s.rooms = some rm → RoomFacts rm

/-- Facts about the connection list: no two live connections share a socket
id, and a connection that has a current room also has a current user (both
are set together by the join handler and never reset). -/
def ConnsInv (s : RelayState) : Prop :=
  (s.conns.map Conn.sockId).Nodup ∧
    ∀ cn ∈ s.conns, cn.currentRoomId.isSome → cn.currentUser.isSome

theorem roomsInv_leaveRoomFn (s : RelayState) (cid rid0 : String) (h : RoomsInv s) :
    RoomsInv (leaveRoomFn s cid rid0).1 := by
  intro rid rm hm
  unfold leaveRoomFn at hm
  cases hl : alLookup rid0 s.rooms with
  | none =>
    rw [hl] at hm
    exact h rid rm hm
  | some rmOld =>
    rw [hl] at hm
    simp only at hm
    by_cases he : (alDelete cid rmOld.users).isEmpty
    · rw [if_pos he] at hm
      exact h rid rm (alLookup_alDelete_cases hm).2
    · rw [if_neg he] at hm
      rcases alLookup_alSet_cases hm with ⟨_, hrm⟩ | ⟨_, hrm⟩
      · subst hrm
        obtain ⟨_, h2, h3⟩ := h rid0 rmOld hl
        refine ⟨?_, ?_, ?_⟩
        · intro hnil
          rw [List.isEmpty_iff] at he
          exact he (by simpa using hnil)
        · exact keys_alDelete_nodup h2
        · intro p hp
          exact h3 p (mem_alDelete_subset hp)
      · exact h rid rm hrm


/-! ### Step characterization lemmas -/

theorem relayStep_connect_live {s : RelayState} {cid : String}
    (hf : (findConn cid s.conns).isSome) : relayStep s (.connect cid) = (s, []) := by
  simp [relayStep, hf]

theorem relayStep_connect_fresh {s : RelayState} {cid : String}
    (hf : findConn cid s.conns = none) :
    relayStep s (.connect cid) =
      ({ s with conns := s.conns ++ [⟨cid, none, none, []⟩] }, []) := by
  simp [relayStep, hf]

theorem relayStep_join_unknown {s : RelayState} {cid rid fid uname : String} {k : Nat}
    (hf : findConn cid s.conns = none) :
    relayStep s (.joinRoom cid rid fid uname k) = (s, []) := by
  simp [relayStep, hf]

theorem relayStep_join {s : RelayState} {cid rid fid uname : String} {k : Nat} {cn : Conn}
    (hf : findConn cid s.conns = some cn) :
    relayStep s (.joinRoom cid rid fid uname k) = joinRoomFn s cid rid fid uname k := by
  simp [relayStep, hf]

theorem relayStep_leave_unknown {s : RelayState} {cid : String}
    (hf : findConn cid s.conns = none) :
    relayStep s (.leaveRoomEv cid) = (s, []) := by
  simp [relayStep, hf]

theorem relayStep_leave {s : RelayState} {cid rid : String} {cn : Conn} {u : CollabUser}
    (hf : findConn cid s.conns = some cn) (hr : cn.currentRoomId = some rid)
    (hu : cn.currentUser = some u) :
    relayStep s (.leaveRoomEv cid) = leaveRoomFn s cid rid := by
  simp [relayStep, hf, hr, hu]

theorem relayStep_leave_noroom {s : RelayState} {cid : String} {cn : Conn}
    (hf : findConn cid s.conns = some cn) (hr : cn.currentRoomId = none) :
    relayStep s (.leaveRoomEv cid) = (s, []) := by
  simp [relayStep, hf, hr]

theorem relayStep_leave_nouser {s : RelayState} {cid rid : String} {cn : Conn}
    (hf : findConn cid s.conns = some cn) (hr : cn.currentRoomId = some rid)
    (hu : cn.currentUser = none) :
    relayStep s (.leaveRoomEv cid) = (s, []) := by
  simp [relayStep, hf, hr, hu]

theorem relayStep_cursor_unknown {s : RelayState} {cid : String} {line col : Nat}
    (hf : findConn cid s.conns = none) :
    relayStep s (.cursorMove cid line col) = (s, []) := by
  simp [relayStep, hf]

theorem relayStep_cursor {s : RelayState} {cid rid : String} {cn : Conn} {u : CollabUser}
    {line col : Nat}
    (hf : findConn cid s.conns = some cn) (hr : cn.currentRoomId = some rid)
    (hu : cn.currentUser = some u) :
    relayStep s (.cursorMove cid line col) = cursorMoveFn s cid u line col rid := by
  simp [relayStep, hf, hr, hu]

theorem relayStep_cursor_noroom {s : RelayState} {cid : String} {cn : Conn} {line col : Nat}
    (hf : findConn cid s.conns = some cn) (hr : cn.currentRoomId = none) :
    relayStep s (.cursorMove cid line col) = (s, []) := by
  simp [relayStep, hf, hr]

theorem relayStep_cursor_nouser {s : RelayState} {cid rid : String} {cn : Conn} {line col : Nat}
    (hf : findConn cid s.conns = some cn) (hr : cn.currentRoomId = some rid)
    (hu : cn.currentUser = none) :
    relayStep s (.cursorMove cid line col) = (s, []) := by
  simp [relayStep, hf, hr, hu]

theorem relayStep_code_unknown {s : RelayState} {cid txt : String} {now : Nat}
    (hf : findConn cid s.conns = none) :
    relayStep s (.codeChange cid txt now) = (s, []) := by
  simp [relayStep, hf]

theorem relayStep_code {s : RelayState} {cid rid txt : String} {cn : Conn} {rm : Room} {now : Nat}
    (hf : findConn cid s.conns = some cn) (hr : cn.currentRoomId = some rid)
    (hl : alLookup rid s.rooms = some rm) :
    relayStep s (.codeChange cid txt now) = codeChangeFn s cid rid rm txt now := by
  simp [relayStep, hf, hr, hl]

theorem relayStep_code_noroom {s : RelayState} {cid txt : String} {cn : Conn} {now : Nat}
    (hf : findConn cid s.conns = some cn) (hr : cn.currentRoomId = none) :
    relayStep s (.codeChange cid txt now) = (s, []) := by
  simp [relayStep, hf, hr]

theorem relayStep_code_noentry {s : RelayState} {cid rid txt : String} {cn : Conn} {now : Nat}
    (hf : findConn cid s.conns = some cn) (hr : cn.currentRoomId = some rid)
    (hl : alLookup rid s.rooms = none) :
    relayStep s (.codeChange cid txt now) = (s, []) := by
  simp [relayStep, hf, hr, hl]

theorem relayStep_sync_unknown {s : RelayState} {cid : String}
    (hf : findConn cid s.conns = none) :
    relayStep s (.syncRequest cid) = (s, []) := by
  simp [relayStep, hf]

theorem relayStep_sync {s : RelayState} {cid rid : String} {cn : Conn} {rm : Room}
    (hf : findConn cid s.conns = some cn) (hr : cn.currentRoomId = some rid)
    (hl : alLookup rid s.rooms = some rm) :
    relayStep s (.syncRequest cid) =
      (s, [⟨cid, rid, .syncResponse rm.content (rm.users.map Prod.snd)⟩]) := by
  simp [relayStep, hf, hr, hl]

theorem relayStep_sync_noroom {s : RelayState} {cid : String} {cn : Conn}
    (hf : findConn cid s.conns = some cn) (hr : cn.currentRoomId = none) :
    relayStep s (.syncRequest cid) = (s, []) := by
  simp [relayStep, hf, hr]

theorem relayStep_sync_noentry {s : RelayState} {cid rid : String} {cn : Conn}
    (hf : findConn cid s.conns = some cn) (hr : cn.currentRoomId = some rid)
    (hl : alLookup rid s.rooms = none) :
    relayStep s (.syncRequest cid) = (s, []) := by
  simp [relayStep, hf, hr, hl]

theorem relayStep_disc_unknown {s : RelayState} {cid : String}
    (hf : findConn cid s.conns = none) :
    relayStep s (.disconnect cid) = (s, []) := by
  simp [relayStep, hf]

theorem relayStep_disc {s : RelayState} {cid : String} {cn : Conn}
    (hf : findConn cid s.conns = some cn) :
    relayStep s (.disconnect cid) = disconnectFn s cid cn := by
  simp [relayStep, hf]

theorem roomsInv_joinRoomFn (s : RelayState) (cid rid fid uname : String) (k : Nat)
    (h : RoomsInv s) : RoomsInv (joinRoomFn s cid rid fid uname k).1 := by
  intro rid' rm' hm
  simp only [joinRoomFn] at hm
  rcases alLookup_alSet_cases hm with ⟨_, hrm⟩ | ⟨_, hrm⟩
  · subst hrm
    unfold joinBase
    cases hl : alLookup rid s.rooms with
    | none =>
      refine ⟨alSet_ne_nil _ _ _, ?_, ?_⟩
      · simp only
        exact keys_alSet_nodup (by simp)
      · intro p hp
        simp only at hp
        rcases mem_alSet hp with h1 | h1
        · simp [h1, joinUser]
        · simp at h1
    | some base =>
      obtain ⟨_, h2, h3⟩ := h rid base hl
      refine ⟨alSet_ne_nil _ _ _, keys_alSet_nodup h2, ?_⟩
      intro p hp
      rcases mem_alSet hp with h1 | h1
      · simp [h1, joinUser]
      · exact h3 p h1
  · exact h rid' rm' hrm

theorem roomsInv_cursorMoveFn (s : RelayState) (cid : String) (u : CollabUser)
    (line col : Nat) (rid : String) (h : RoomsInv s) :
    RoomsInv (cursorMoveFn s cid u line col rid).1 := by
  intro rid' rm' hm
  simp only [cursorMoveFn] at hm
  cases hl : alLookup rid s.rooms with
  | none =>
    simp only [hl] at hm
    exact h rid' rm' hm
  | some rmOld =>
    simp only [hl] at hm
    cases hcu : alLookup cid rmOld.users with
    | none =>
      simp only [hcu] at hm
      exact h rid' rm' hm
    | some entry =>
      simp only [hcu] at hm
      rcases alLookup_alSet_cases hm with ⟨_, hrm⟩ | ⟨_, hrm⟩
      · subst hrm
        obtain ⟨h1, h2, h3⟩ := h rid rmOld hl
        refine ⟨alSet_ne_nil _ _ _, keys_alSet_nodup h2, ?_⟩
        intro p hp
        rcases mem_alSet hp with h4 | h4
        · have := h3 _ (mem_keys_of_alLookup hcu)
          simp only [h4]
          simpa using this
        · exact h3 p h4
      · exact h rid' rm' hrm

theorem roomsInv_codeChangeFn (s : RelayState) (cid rid : String) (rm : Room)
    (txt : String) (now : Nat) (hl : alLookup rid s.rooms = some rm) (h : RoomsInv s) :
    RoomsInv (codeChangeFn s cid rid rm txt now).1 := by
  intro rid' rm' hm
  simp only [codeChangeFn] at hm
  rcases alLookup_alSet_cases hm with ⟨_, hrm⟩ | ⟨_, hrm⟩
  · subst hrm
    obtain ⟨h1, h2, h3⟩ := h rid rm hl
    exact ⟨by simpa using h1, by simpa using h2, by simpa using h3⟩
  · exact h rid' rm' hrm

theorem roomsInv_disconnectFn (s : RelayState) (cid : String) (cn : Conn)
    (h : RoomsInv s) : RoomsInv (disconnectFn s cid cn).1 := by
  intro rid' rm' hm
  simp only [disconnectFn] at hm
  cases hr : cn.currentRoomId with
  | none =>
    simp only [hr] at hm
    exact h rid' rm' hm
  | some rid0 =>
    simp only [hr] at hm
    cases hu : cn.currentUser with
    | none =>
      simp only [hu] at hm
      exact h rid' rm' hm
    | some u =>
      simp only [hu] at hm
      exact roomsInv_leaveRoomFn s cid rid0 h rid' rm' hm

theorem roomsInv_step (s : RelayState) (e : Event) (h : RoomsInv s) :
    RoomsInv (step1 s e) := by
  cases e with
  | connect cid =>
    cases hf : findConn cid s.conns with
    | none =>
      rw [step1, relayStep_connect_fresh hf]
      exact h
    | some cn =>
      rw [step1, relayStep_connect_live (by simp [hf])]
      exact h
  | joinRoom cid rid fid uname k =>
    cases hf : findConn cid s.conns with
    | none =>
      rw [step1, relayStep_join_unknown hf]
      exact h
    | some cn =>
      rw [step1, relayStep_join hf]
      exact roomsInv_joinRoomFn s cid rid fid uname k h
  | leaveRoomEv cid =>
    cases hf : findConn cid s.conns with
    | none =>
      rw [step1, relayStep_leave_unknown hf]
      exact h
    | some cn =>
      cases hr : cn.currentRoomId with
      | none =>
        rw [step1, relayStep_leave_noroom hf hr]
        exact h
      | some rid =>
        cases hu : cn.currentUser with
        | none =>
          rw [step1, relayStep_leave_nouser hf hr hu]
          exact h
        | some u =>
          rw [step1, relayStep_leave hf hr hu]
          exact roomsInv_leaveRoomFn s cid rid h
  | cursorMove cid line col =>
    cases hf : findConn cid s.conns with
    | none =>
      rw [step1, relayStep_cursor_unknown hf]
      exact h
    | some cn =>
      cases hr : cn.currentRoomId with
      | none =>
        rw [step1, relayStep_cursor_noroom hf hr]
        exact h
      | some rid =>
        cases hu : cn.currentUser with
        | none =>
          rw [step1, relayStep_cursor_nouser hf hr hu]
          exact h
        | some u =>
          rw [step1, relayStep_cursor hf hr hu]
          exact roomsInv_cursorMoveFn s cid u line col rid h
  | codeChange cid txt now =>
    cases hf : findConn cid s.conns with
    | none =>
      rw [step1, relayStep_code_unknown hf]
      exact h
    | some cn =>
      cases hr : cn.currentRoomId with
      | none =>
        rw [step1, relayStep_code_noroom hf hr]
        exact h
      | some rid =>
        cases hl : alLookup rid s.rooms with
        | none =>
          rw [step1, relayStep_code_noentry hf hr hl]
          exact h
        | some rm =>
          rw [step1, relayStep_code hf hr hl]
          exact roomsInv_codeChangeFn s cid rid rm txt now hl h
  | syncRequest cid =>
    cases hf : findConn cid s.conns with
    | none =>
      rw [step1, relayStep_sync_unknown hf]
      exact h
    | some cn =>
      cases hr : cn.currentRoomId with
      | none =>
        rw [step1, relayStep_sync_noroom hf hr]
        exact h
      | some rid =>
        cases hl : alLookup rid s.rooms with
        | none =>
          rw [step1, relayStep_sync_noentry hf hr hl]
          exact h
        | some rm =>
          rw [step1, relayStep_sync hf hr hl]
          exact h
  | disconnect cid =>
    cases hf : findConn cid s.conns with
    | none =>
      rw [step1, relayStep_disc_unknown hf]
      exact h
    | some cn =>
      rw [step1, relayStep_disc hf]
      exact roomsInv_disconnectFn s cid cn h

theorem roomsInv_runFrom (s : RelayState) (evs : List Event) (h : RoomsInv s) :
    RoomsInv (runFrom s evs) := by
  induction evs generalizing s with
  | nil => exact h
  | cons e rest ih => exact ih (step1 s e) (roomsInv_step s e h)

theorem roomsInv_relayRun (evs : List Event) : RoomsInv (relayRun evs) := by
  apply roomsInv_runFrom
  intro rid rm hm
  simp [relayInit, alLookup] at hm

theorem connsInv_updateConn {cs : List Conn} {cid : String} {f : Conn → Conn}
    (h1 : (cs.map Conn.sockId).Nodup)
    (h2 : ∀ cn ∈ cs, cn.currentRoomId.isSome → cn.currentUser.isSome)
    (hid : ∀ cn, (f cn).sockId = cn.sockId)
    (hp : ∀ cn ∈ cs, (f cn).currentRoomId.isSome → (f cn).currentUser.isSome) :
    ((updateConn cid f cs).map Conn.sockId).Nodup ∧
      ∀ cn ∈ updateConn cid f cs, cn.currentRoomId.isSome → cn.currentUser.isSome := by
  constructor
  · rw [updateConn_sockIds cid f cs hid]
    exact h1
  · intro cn' hm
    rcases mem_updateConn hm with ⟨cn, hmem, he⟩
    by_cases hb : cn.sockId = cid
    · rw [if_pos (by simp [hb])] at he
      subst he
      exact hp cn hmem
    · rw [if_neg (by simp [hb])] at he
      rw [he]
      exact h2 cn hmem

theorem connsInv_leaveRoomFn (s : RelayState) (cid rid : String) (h : ConnsInv s) :
    ConnsInv (leaveRoomFn s cid rid).1 := by
  obtain ⟨h1, h2⟩ := h
  have key := @connsInv_updateConn s.conns cid
    (fun cn => { cn with joinedRooms := cn.joinedRooms.filter (· != rid) })
    h1 h2 (fun cn => rfl) (fun cn hm => h2 cn hm)
  unfold leaveRoomFn
  cases hl : alLookup rid s.rooms with
  | none => exact key
  | some rm => exact key

theorem connsInv_step (s : RelayState) (e : Event) (h : ConnsInv s) :
    ConnsInv (step1 s e) := by
  obtain ⟨h1, h2⟩ := h
  cases e with
  | connect cid =>
    cases hf : findConn cid s.conns with
    | none =>
      rw [step1, relayStep_connect_fresh hf]
      constructor
      · show ((s.conns ++ [(⟨cid, none, none, []⟩ : Conn)]).map Conn.sockId).Nodup
        simp only [List.map_append, List.map_cons, List.map_nil]
        rw [List.nodup_append]
        refine ⟨h1, by simp, ?_⟩
        intro x hx
        simp only [List.mem_singleton]
        rcases List.mem_map.mp hx with ⟨cn, hmem, he⟩
        subst he
        intro hcontra
        exact (findConn_isNone_iff.mp hf cn hmem) hcontra
      · intro cn hm
        rcases List.mem_append.mp hm with h3 | h3
        · exact h2 cn h3
        · simp only [List.mem_singleton] at h3
          subst h3
          simp
    | some cn =>
      rw [step1, relayStep_connect_live (by simp [hf])]
      exact ⟨h1, h2⟩
  | joinRoom cid rid fid uname k =>
    cases hf : findConn cid s.conns with
    | none =>
      rw [step1, relayStep_join_unknown hf]
      exact ⟨h1, h2⟩
    | some cn =>
      rw [step1, relayStep_join hf]
      exact connsInv_updateConn h1 h2 (fun c => rfl) (fun c hm => by simp)
  | leaveRoomEv cid =>
    cases hf : findConn cid s.conns with
    | none =>
      rw [step1, relayStep_leave_unknown hf]
      exact ⟨h1, h2⟩
    | some cn =>
      cases hr : cn.currentRoomId with
      | none =>
        rw [step1, relayStep_leave_noroom hf hr]
        exact ⟨h1, h2⟩
      | some rid =>
        cases hu : cn.currentUser with
        | none =>
          rw [step1, relayStep_leave_nouser hf hr hu]
          exact ⟨h1, h2⟩
        | some u =>
          rw [step1, relayStep_leave hf hr hu]
          exact connsInv_leaveRoomFn s cid rid ⟨h1, h2⟩
  | cursorMove cid line col =>
    cases hf : findConn cid s.conns with
    | none =>
      rw [step1, relayStep_cursor_unknown hf]
      exact ⟨h1, h2⟩
    | some cn =>
      cases hr : cn.currentRoomId with
      | none =>
        rw [step1, relayStep_cursor_noroom hf hr]
        exact ⟨h1, h2⟩
      | some rid =>
        cases hu : cn.currentUser with
        | none =>
          rw [step1, relayStep_cursor_nouser hf hr hu]
          exact ⟨h1, h2⟩
        | some u =>
          rw [step1, relayStep_cursor hf hr hu]
          exact connsInv_updateConn h1 h2 (fun c => rfl) (fun c hm => by simp)
  | codeChange cid txt now =>
    cases hf : findConn cid s.conns with
    | none =>
      rw [step1, relayStep_code_unknown hf]
      exact ⟨h1, h2⟩
    | some cn =>
      cases hr : cn.currentRoomId with
      | none =>
        rw [step1, relayStep_code_noroom hf hr]
        exact ⟨h1, h2⟩
      | some rid =>
        cases hl : alLookup rid s.rooms with
        | none =>
          rw [step1, relayStep_code_noentry hf hr hl]
          exact ⟨h1, h2⟩
        | some rm =>
          rw [step1, relayStep_code hf hr hl]
          exact ⟨h1, h2⟩
  | syncRequest cid =>
    cases hf : findConn cid s.conns with
    | none =>
      rw [step1, relayStep_sync_unknown hf]
      exact ⟨h1, h2⟩
    | some cn =>
      cases hr : cn.currentRoomId with
      | none =>
        rw [step1, relayStep_sync_noroom hf hr]
        exact ⟨h1, h2⟩
      | some rid =>
        cases hl : alLookup rid s.rooms with
        | none =>
          rw [step1, relayStep_sync_noentry hf hr hl]
          exact ⟨h1, h2⟩
        | some rm =>
          rw [step1, relayStep_sync hf hr hl]
          exact ⟨h1, h2⟩
  | disconnect cid =>
    cases hf : findConn cid s.conns with
    | none =>
      rw [step1, relayStep_disc_unknown hf]
      exact ⟨h1, h2⟩
    | some cn =>
      rw [step1, relayStep_disc hf]
      unfold disconnectFn
      have base : ConnsInv (match cn.currentRoomId, cn.currentUser with
          | some rid, some _ => leaveRoomFn s cid rid
          | _, _ => (s, [])).1 := by
        cases hr : cn.currentRoomId with
        | none => exact ⟨h1, h2⟩
        | some rid =>
          cases hu : cn.currentUser with
          | none => exact ⟨h1, h2⟩
          | some u => exact connsInv_leaveRoomFn s cid rid ⟨h1, h2⟩
      obtain ⟨b1, b2⟩ := base
      constructor
      · exact b1.sublist ((List.filter_sublist _).map Conn.sockId)
      · intro c hm
        exact b2 c (List.mem_of_mem_filter hm)

theorem connsInv_runFrom (s : RelayState) (evs : List Event) (h : ConnsInv s) :
    ConnsInv (runFrom s evs) := by
  induction evs generalizing s with
  | nil => exact h
  | cons e rest ih => exact ih (step1 s e) (connsInv_step s e h)

theorem connsInv_relayRun (evs : List Event) : ConnsInv (relayRun evs) := by
  apply connsInv_runFrom
  exact ⟨by simp [relayInit], by simp [relayInit]⟩

/-! ### Content preservation (last-write-wins) -/

/-- Does this event overwrite the content of room `rid`?  True exactly for
a `codeChange` whose sender's current room is `rid`. -/
def ccTargets (s : RelayState) (e : Event) (rid : String) : Bool :=
  match e with
  | .codeChange cid _ _ =>
    match findConn cid s.conns with
    | some cn => cn.currentRoomId == some rid
    | none => false
  | _ => false

/-- No event of the list, run from `s`, is a content change for room
`rid`. -/
def noCCFor (rid : String) : RelayState → List Event → Bool
  | _, [] => true
  | s, e :: rest => !(ccTargets s e rid) && noCCFor rid (step1 s e) rest

/-- Room `rid` stays in the room map after every event of the list. -/
def roomAliveAll (rid : String) : RelayState → List Event → Bool
  | _, [] => true
  | s, e :: rest =>
      (alLookup rid (step1 s e).rooms).isSome && roomAliveAll rid (step1 s e) rest

theorem leaveRoomFn_content {s : RelayState} {cid rid0 rid : String} {rm rm' : Room}
    (hl : alLookup rid s.rooms = some rm)
    (hm : alLookup rid (leaveRoomFn s cid rid0).1.rooms = some rm') :
    rm'.content = rm.content := by
  unfold leaveRoomFn at hm
  cases hl0 : alLookup rid0 s.rooms with
  | none =>
    simp only [hl0] at hm
    rw [hl] at hm
    cases hm
    rfl
  | some rmOld =>
    simp only [hl0] at hm
    by_cases he : (alDelete cid rmOld.users).isEmpty
    · rw [if_pos he] at hm
      rcases alLookup_alDelete_cases hm with ⟨_, hm2⟩
      rw [hl] at hm2
      cases hm2
      rfl
    · rw [if_neg he] at hm
      rcases alLookup_alSet_cases hm with ⟨heq, hrm⟩ | ⟨_, hrm⟩
      · subst heq
        rw [hl] at hl0
        cases hl0
        subst hrm
        rfl
      · rw [hl] at hrm
        cases hrm
        rfl

theorem content_preserved_step (s : RelayState) (e : Event) (rid : String) (rm rm' : Room)
    (hl : alLookup rid s.rooms = some rm) (hcc : ccTargets s e rid = false)
    (hm : alLookup rid (step1 s e).rooms = some rm') :
    rm'.content = rm.content := by
  cases e with
  | connect cid =>
    cases hf : findConn cid s.conns with
    | none =>
      rw [step1, relayStep_connect_fresh hf] at hm
      rw [hl] at hm
      cases hm
      rfl
    | some cn =>
      rw [step1, relayStep_connect_live (by simp [hf])] at hm
      rw [hl] at hm
      cases hm
      rfl
  | joinRoom cid rid0 fid uname k =>
    cases hf : findConn cid s.conns with
    | none =>
      rw [step1, relayStep_join_unknown hf] at hm
      rw [hl] at hm
      cases hm
      rfl
    | some cn =>
      rw [step1, relayStep_join hf] at hm
      simp only [joinRoomFn] at hm
      rcases alLookup_alSet_cases hm with ⟨heq, hrm⟩ | ⟨_, hrm⟩
      · subst heq
        subst hrm
        unfold joinBase
        rw [hl]
      · rw [hl] at hrm
        cases hrm
        rfl
  | leaveRoomEv cid =>
    cases hf : findConn cid s.conns with
    | none =>
      rw [step1, relayStep_leave_unknown hf] at hm
      rw [hl] at hm
      cases hm
      rfl
    | some cn =>
      cases hr : cn.currentRoomId with
      | none =>
        rw [step1, relayStep_leave_noroom hf hr] at hm
        rw [hl] at hm
        cases hm
        rfl
      | some rid0 =>
        cases hu : cn.currentUser with
        | none =>
          rw [step1, relayStep_leave_nouser hf hr hu] at hm
          rw [hl] at hm
          cases hm
          rfl
        | some u =>
          rw [step1, relayStep_leave hf hr hu] at hm
          exact leaveRoomFn_content hl hm
  | cursorMove cid line col =>
    cases hf : findConn cid s.conns with
    | none =>
      rw [step1, relayStep_cursor_unknown hf] at hm
      rw [hl] at hm
      cases hm
      rfl
    | some cn =>
      cases hr : cn.currentRoomId with
      | none =>
        rw [step1, relayStep_cursor_noroom hf hr] at hm
        rw [hl] at hm
        cases hm
        rfl
      | some rid0 =>
        cases hu : cn.currentUser with
        | none =>
          rw [step1, relayStep_cursor_nouser hf hr hu] at hm
          rw [hl] at hm
          cases hm
          rfl
        | some u =>
          rw [step1, relayStep_cursor hf hr hu] at hm
          simp only [cursorMoveFn] at hm
          cases hl0 : alLookup rid0 s.rooms with
          | none =>
            simp only [hl0] at hm
            rw [hl] at hm
            cases hm
            rfl
          | some rmOld =>
            simp only [hl0] at hm
            cases hcu : alLookup cid rmOld.users with
            | none =>
              simp only [hcu] at hm
              rw [hl] at hm
              cases hm
              rfl
            | some entry =>
              simp only [hcu] at hm
              rcases alLookup_alSet_cases hm with ⟨heq, hrm⟩ | ⟨_, hrm⟩
              · subst heq
                rw [hl] at hl0
                cases hl0
                subst hrm
                rfl
              · rw [hl] at hrm
                cases hrm
                rfl
  | codeChange cid txt now =>
    cases hf : findConn cid s.conns with
    | none =>
      rw [step1, relayStep_code_unknown hf] at hm
      rw [hl] at hm
      cases hm
      rfl
    | some cn =>
      cases hr : cn.currentRoomId with
      | none =>
        rw [step1, relayStep_code_noroom hf hr] at hm
        rw [hl] at hm
        cases hm
        rfl
      | some rid0 =>
        have hne : rid0 ≠ rid := by
          intro he
          subst he
          simp [ccTargets, hf, hr] at hcc
        cases hl0 : alLookup rid0 s.rooms with
        | none =>
          rw [step1, relayStep_code_noentry hf hr hl0] at hm
          rw [hl] at hm
          cases hm
          rfl
        | some rm0 =>
          rw [step1, relayStep_code hf hr hl0] at hm
          simp only [codeChangeFn] at hm
          rw [alLookup_alSet_ne _ _ _ _ hne] at hm
          rw [hl] at hm
          cases hm
          rfl
  | syncRequest cid =>
    cases hf : findConn cid s.conns with
    | none =>
      rw [step1, relayStep_sync_unknown hf] at hm
      rw [hl] at hm
      cases hm
      rfl
    | some cn =>
      cases hr : cn.currentRoomId with
      | none =>
        rw [step1, relayStep_sync_noroom hf hr] at hm
        rw [hl] at hm
        cases hm
        rfl
      | some rid0 =>
        cases hl0 : alLookup rid0 s.rooms with
        | none =>
          rw [step1, relayStep_sync_noentry hf hr hl0] at hm
          rw [hl] at hm
          cases hm
          rfl
        | some rm0 =>
          rw [step1, relayStep_sync hf hr hl0] at hm
          rw [hl] at hm
          cases hm
          rfl
  | disconnect cid =>
    cases hf : findConn cid s.conns with
    | none =>
      rw [step1, relayStep_disc_unknown hf] at hm
      rw [hl] at hm
      cases hm
      rfl
    | some cn =>
      rw [step1, relayStep_disc hf] at hm
      simp only [disconnectFn] at hm
      cases hr : cn.currentRoomId with
      | none =>
        simp only [hr] at hm
        rw [hl] at hm
        cases hm
        rfl
      | some rid0 =>
        simp only [hr] at hm
        cases hu : cn.currentUser with
        | none =>
          simp only [hu] at hm
          rw [hl] at hm
          cases hm
          rfl
        | some u =>
          simp only [hu] at hm
          exact leaveRoomFn_content hl hm

theorem content_preserved_run (rid : String) (evs : List Event) (s : RelayState)
    (rm : Room) (hl : alLookup rid s.rooms = some rm)
    (hcc : noCCFor rid s evs = true) (ha : roomAliveAll rid s evs = true) :
    ∃ rm', alLookup rid (runFrom s evs).rooms = some rm' ∧ rm'.content = rm.content := by
  induction evs generalizing s rm with
  | nil => exact ⟨rm, hl, rfl⟩
  | cons e rest ih =>
    simp only [noCCFor, Bool.and_eq_true, Bool.not_eq_true'] at hcc
    simp only [roomAliveAll, Bool.and_eq_true] at ha
    rcases Option.isSome_iff_exists.mp ha.1 with ⟨rm1, hm1⟩
    have hc1 := content_preserved_step s e rid rm rm1 hl hcc.1 hm1
    rcases ih (step1 s e) rm1 hm1 hcc.2 ha.2 with ⟨rm', hm', hc'⟩
    exact ⟨rm', hm', by rw [hc', hc1]⟩

/-! ### Claim theorems for the relay -/

/-- C1: processing a `contentChange` with text `T` from a connection whose
current room is `R` (with `R` in the map) overwrites `R`'s stored text with
`T` unconditionally — whatever the old content was, with no version check
and no diffing — and after any further events none of which is a content
change for `R` and none of which deletes `R`, a `syncRequest` by any
connection in room `R` is answered, to it alone, with exactly `T`. -/
theorem codeChange_overwrites_and_syncs
    (s : RelayState) (cid T : String) (now : Nat) (rid : String) (cn : Conn) (rm : Room)
    (evs : List Event) (cid' : String)
    (hf : findConn cid s.conns = some cn) (hr : cn.currentRoomId = some rid)
    (hl : alLookup rid s.rooms = some rm) :
    alLookup rid (step1 s (.codeChange cid T now)).rooms = some { rm with content := T } ∧
    (noCCFor rid (step1 s (.codeChange cid T now)) evs = true →
      roomAliveAll rid (step1 s (.codeChange cid T now)) evs = true →
      ∀ cn', findConn cid' (runFrom (step1 s (.codeChange cid T now)) evs).conns = some cn' →
        cn'.currentRoomId = some rid →
        ∃ rm2, alLookup rid (runFrom (step1 s (.codeChange cid T now)) evs).rooms = some rm2 ∧
          rm2.content = T ∧
          stepMsgs (runFrom (step1 s (.codeChange cid T now)) evs) (.syncRequest cid') =
            [⟨cid', rid, .syncResponse T (rm2.users.map Prod.snd)⟩]) := by
  have h1 : alLookup rid (step1 s (.codeChange cid T now)).rooms =
      some { rm with content := T } := by
    rw [step1, relayStep_code hf hr hl]
    simp only [codeChangeFn]
    exact alLookup_alSet_self _ _ _
  refine ⟨h1, ?_⟩
  intro hcc ha cn' hf' hr'
  rcases content_preserved_run rid evs _ _ h1 hcc ha with ⟨rm2, hm2, hc2⟩
  have hc2' : rm2.content = T := hc2
  refine ⟨rm2, hm2, hc2', ?_⟩
  rw [stepMsgs, relayStep_sync hf' hr' hm2]
  rw [hc2']

/-- Witness for C1: in room `r` with participants `A` and `B`, `A`'s
contentChange to "hello" followed by a cursor move of `B` leaves the room
text "hello", and `B`'s syncRequest is answered with exactly it. -/
theorem codeChange_overwrites_and_syncs_witness :
    ∃ rm2,
      alLookup "r" (runFrom (step1 (relayRun [.connect "A", .connect "B",
          .joinRoom "A" "r" "f" "alice" 0, .joinRoom "B" "r" "f" "bob" 1])
          (.codeChange "A" "hello" 5)) [.cursorMove "B" 1 2]).rooms = some rm2 ∧
      rm2.content = "hello" ∧
      stepMsgs (runFrom (step1 (relayRun [.connect "A", .connect "B",
          .joinRoom "A" "r" "f" "alice" 0, .joinRoom "B" "r" "f" "bob" 1])
          (.codeChange "A" "hello" 5)) [.cursorMove "B" 1 2]) (.syncRequest "B") =
        [⟨"B", "r", .syncResponse "hello" (rm2.users.map Prod.snd)⟩] :=
  (codeChange_overwrites_and_syncs
      (relayRun [.connect "A", .connect "B", .joinRoom "A" "r" "f" "alice" 0,
        .joinRoom "B" "r" "f" "bob" 1])
      "A" "hello" 5 "r"
      ⟨"A", some "r", some ⟨"A", "alice", "#FF6B6B", none⟩, ["r"]⟩
      ⟨"r", "f", [("A", ⟨"A", "alice", "#FF6B6B", none⟩),
                  ("B", ⟨"B", "bob", "#4ECDC4", none⟩)], ""⟩
      [.cursorMove "B" 1 2] "B" (by decide) (by decide) (by decide)).2
    (by decide) (by decide)
    ⟨"B", some "r", some ⟨"B", "bob", "#4ECDC4", some (1, 2)⟩, ["r"]⟩
    (by decide) (by decide)

/-- C2: in every reachable relay state a room in the map has at least one
recorded participant (and a room with a recorded participant is by
construction in the map, since participants are stored inside the room
entry); a join to an unknown room id creates it with empty text and the
joiner as sole participant, answering the joiner's sync with empty text;
and when the sole recorded participant of a room leaves or disconnects the
room is deleted from the map. -/
theorem room_exists_iff_inhabited :
    (∀ evs rid rm, alLookup rid (relayRun evs).rooms = some rm → rm.users ≠ []) ∧
    (∀ s cid rid fid uname k cn, findConn cid s.conns = some cn →
      alLookup rid s.rooms = none →
      alLookup rid (step1 s (.joinRoom cid rid fid uname k)).rooms =
        some ⟨rid, fid, [(cid, joinUser cid uname k)], ""⟩ ∧
      ⟨cid, rid, .syncResponse "" [joinUser cid uname k]⟩ ∈
        stepMsgs s (.joinRoom cid rid fid uname k)) ∧
    (∀ s cid rid cn u rm, findConn cid s.conns = some cn →
      cn.currentRoomId = some rid → cn.currentUser = some u →
      alLookup rid s.rooms = some rm → rm.users.map Prod.fst = [cid] →
      alLookup rid (step1 s (.leaveRoomEv cid)).rooms = none ∧
      alLookup rid (step1 s (.disconnect cid)).rooms = none) := by
  refine ⟨?_, ?_, ?_⟩
  · intro evs rid rm hm
    exact (roomsInv_relayRun evs rid rm hm).1
  · intro s cid rid fid uname k cn hf hl0
    constructor
    · rw [step1, relayStep_join hf]
      simp only [joinRoomFn, joinBase, hl0]
      have : alSet cid (joinUser cid uname k)
          (⟨rid, fid, [], ""⟩ : Room).users = [(cid, joinUser cid uname k)] := by
        simp [alSet]
      rw [show ({ (⟨rid, fid, [], ""⟩ : Room) with
          users := alSet cid (joinUser cid uname k) (⟨rid, fid, [], ""⟩ : Room).users } : Room) =
          ⟨rid, fid, [(cid, joinUser cid uname k)], ""⟩ from by simp [alSet]]
      exact alLookup_alSet_self _ _ _
    · rw [stepMsgs, relayStep_join hf]
      simp only [joinRoomFn, joinBase, hl0]
      apply List.mem_append_right
      simp [alSet]
  · intro s cid rid cn u rm hf hr hu hl hkeys
    have hnil : alDelete cid rm.users = [] := by
      apply List.map_eq_nil_iff.mp
      rw [keys_alDelete, hkeys]
      simp
    have hdel : alLookup rid (leaveRoomFn s cid rid).1.rooms = none := by
      unfold leaveRoomFn
      simp only [hl, hnil, List.isEmpty_nil, if_pos]
      exact alLookup_alDelete_self _ _
    constructor
    · rw [step1, relayStep_leave hf hr hu]
      exact hdel
    · rw [step1, relayStep_disc hf]
      simp only [disconnectFn, hr, hu]
      exact hdel

/-- Witness for C2: a first join to room `r` creates it with empty text and
syncs the joiner with empty text; when its only participant then leaves,
the room is gone. -/
theorem room_exists_iff_inhabited_witness :
    (alLookup "r" (step1 (relayRun [.connect "A"])
        (.joinRoom "A" "r" "f" "alice" 0)).rooms =
      some ⟨"r", "f", [("A", joinUser "A" "alice" 0)], ""⟩ ∧
     ⟨"A", "r", .syncResponse "" [joinUser "A" "alice" 0]⟩ ∈
       stepMsgs (relayRun [.connect "A"]) (.joinRoom "A" "r" "f" "alice" 0)) ∧
    (alLookup "r" (step1 (relayRun [.connect "A", .joinRoom "A" "r" "f" "alice" 0])
        (.leaveRoomEv "A")).rooms = none ∧
     alLookup "r" (step1 (relayRun [.connect "A", .joinRoom "A" "r" "f" "alice" 0])
        (.disconnect "A")).rooms = none) :=
  ⟨room_exists_iff_inhabited.2.1 (relayRun [.connect "A"]) "A" "r" "f" "alice" 0
      ⟨"A", none, none, []⟩ (by decide) (by decide),
   room_exists_iff_inhabited.2.2 (relayRun [.connect "A", .joinRoom "A" "r" "f" "alice" 0])
      "A" "r" ⟨"A", some "r", some ⟨"A", "alice", "#FF6B6B", none⟩, ["r"]⟩
      ⟨"A", "alice", "#FF6B6B", none⟩
      ⟨"r", "f", [("A", ⟨"A", "alice", "#FF6B6B", none⟩)], ""⟩
      (by decide) (by decide) (by decide) (by decide) (by decide)⟩

/-- C9: in every reachable relay state no room has two recorded
participants with the same connection id, and a join from a connection
already recorded in that room replaces its entry in place — same key, new
user record (name and freshly drawn color) — leaving the participant count
unchanged. -/
theorem room_users_nodup_and_rejoin_replaces :
    (∀ evs rid rm, alLookup rid (relayRun evs).rooms = some rm →
      (rm.users.map Prod.fst).Nodup) ∧
    (∀ s cid rid fid uname k cn rm uOld, findConn cid s.conns = some cn →
      alLookup rid s.rooms = some rm → alLookup cid rm.users = some uOld →
      ∃ rm', alLookup rid (step1 s (.joinRoom cid rid fid uname k)).rooms = some rm' ∧
        alLookup cid rm'.users = some (joinUser cid uname k) ∧
        rm'.users.length = rm.users.length) := by
  constructor
  · intro evs rid rm hm
    exact (roomsInv_relayRun evs rid rm hm).2.1
  · intro s cid rid fid uname k cn rm uOld hf hl hcu
    rw [step1, relayStep_join hf]
    simp only [joinRoomFn, joinBase, hl]
    refine ⟨_, alLookup_alSet_self _ _ _, ?_, ?_⟩
    · exact alLookup_alSet_self _ _ _
    · exact alSet_length_of_lookup hcu

/-- Witness for C9: `A` rejoining room `r` with a different name and color
draw replaces its single entry; the room still has exactly one user. -/
theorem room_users_nodup_and_rejoin_replaces_witness :
    ∃ rm', alLookup "r" (step1 (relayRun [.connect "A", .joinRoom "A" "r" "f" "alice" 0])
        (.joinRoom "A" "r" "f" "al2" 3)).rooms = some rm' ∧
      alLookup "A" rm'.users = some (joinUser "A" "al2" 3) ∧
      rm'.users.length =
        (⟨"r", "f", [("A", ⟨"A", "alice", "#FF6B6B", none⟩)], ""⟩ : Room).users.length :=
  room_users_nodup_and_rejoin_replaces.2
    (relayRun [.connect "A", .joinRoom "A" "r" "f" "alice" 0]) "A" "r" "f" "al2" 3
    ⟨"A", some "r", some ⟨"A", "alice", "#FF6B6B", none⟩, ["r"]⟩
    ⟨"r", "f", [("A", ⟨"A", "alice", "#FF6B6B", none⟩)], ""⟩
    ⟨"A", "alice", "#FF6B6B", none⟩
    (by decide) (by decide) (by decide)

/-- C6: every color the join handler assigns is an element of the one fixed
ordered palette, whose length (12) is at least 10; and there is no
uniqueness guarantee: a reachable room holds two distinct participants with
the same color. -/
theorem color_palette_and_collisions :
    (∀ k, generateColor k ∈ relayColors) ∧ 10 ≤ relayColors.length ∧
    (∃ evs rid rm p q, alLookup rid (relayRun evs).rooms = some rm ∧
      p ∈ rm.users ∧ q ∈ rm.users ∧ p.1 ≠ q.1 ∧ p.2.color = q.2.color) := by
  refine ⟨?_, by decide, ?_⟩
  · intro k
    unfold generateColor
    have h : k % relayColors.length < relayColors.length := by
      apply Nat.mod_lt
      decide
    rw [List.getD_eq_getElem _ _ h]
    exact List.getElem_mem h
  · exact ⟨[.connect "A", .connect "B", .joinRoom "A" "r" "f" "alice" 0,
      .joinRoom "B" "r" "f" "bob" 12], "r",
      ⟨"r", "f", [("A", ⟨"A", "alice", "#FF6B6B", none⟩),
                  ("B", ⟨"B", "bob", "#FF6B6B", none⟩)], ""⟩,
      ("A", ⟨"A", "alice", "#FF6B6B", none⟩), ("B", ⟨"B", "bob", "#FF6B6B", none⟩),
      by decide, by decide, by decide, by decide, by decide⟩

/-- C5 (code bug): before any join, a `contentChange` is a true no-op; but
after an explicit leave the handler closure still holds the old room id, so
a `contentChange` from the departed connection `A` still overwrites room
`r`'s text to "X" and is broadcast to `B`, instead of being silently
ignored. -/
theorem events_after_leave_not_ignored :
    (relayStep (relayRun [.connect "A"]) (.codeChange "A" "X" 0) =
      (relayRun [.connect "A"], [])) ∧
    alLookup "r" (relayRun [.connect "A", .connect "B",
        .joinRoom "A" "r" "f" "alice" 0, .joinRoom "B" "r" "f" "bob" 1,
        .leaveRoomEv "A", .codeChange "A" "X" 0]).rooms =
      some ⟨"r", "f", [("B", ⟨"B", "bob", "#4ECDC4", none⟩)], "X"⟩ ∧
    stepMsgs (relayRun [.connect "A", .connect "B", .joinRoom "A" "r" "f" "alice" 0,
        .joinRoom "B" "r" "f" "bob" 1, .leaveRoomEv "A"]) (.codeChange "A" "X" 0) =
      [⟨"B", "r", .codeChanged "X" "A" 0⟩] := by
  refine ⟨by decide, by decide, by decide⟩

/-! ### Broadcast scope: socket.io membership vs. recorded participants -/

/-- Is `cid` recorded as a participant of room `rid` (a key of the room's
users map)? -/
def inRoomUsers (s : RelayState) (rid cid : String) : Bool :=
  match alLookup rid s.rooms with
  | some rm => (alLookup cid rm.users).isSome
  | none => false

/-- The socket ids of the live connections recorded in room `rid`, minus
the sender: the audience the broadcast-scope rule prescribes. -/
def recordedOthers (s : RelayState) (rid sender : String) : List String :=
  (s.conns.filter (fun cn => inRoomUsers s rid cn.sockId && cn.sockId != sender)).map
    Conn.sockId

/-- Invariant: a live connection's socket.io memberships coincide with the
rooms in which it is recorded as a participant. -/
def MembershipInv (s : RelayState) : Prop :=
  ∀ cn ∈ s.conns, ∀ rid, cn.joinedRooms.contains rid = inRoomUsers s rid cn.sockId

/-- Every live socket id and every recorded participant key has been handed
out by the transport (is in `seen`).  Used to rule out a fresh connection
colliding with a stale recorded participant. -/
def SeenOK (s : RelayState) (seen : List String) : Prop :=
  (∀ cn ∈ s.conns, cn.sockId ∈ seen) ∧
    (∀ rid rm, alLookup rid s.rooms = some rm → ∀ p ∈ rm.users, p.1 ∈ seen)

/-- The transport hands out fresh socket ids: every `connect` of the trace
carries an id never connected before. -/
def freshConnects : List String → List Event → Bool
  | _, [] => true
  | seen, e :: rest =>
    match e with
    | .connect cid => !(seen.contains cid) && freshConnects (cid :: seen) rest
    | _ => freshConnects seen rest

/-- The ids seen after one more event. -/
def seenAfter (seen : List String) : Event → List String
  | .connect cid => cid :: seen
  | _ => seen

theorem contains_filter_ne_self (l : List String) (x : String) :
    ((l.filter (fun z => z != x)).contains x) = false := by
  have h1 : x ∉ l.filter (fun z => z != x) := by
    intro hm
    have h2 := (List.mem_filter.mp hm).2
    simp at h2
  simp [h1]

theorem contains_filter_ne (l : List String) (x y : String) (h : y ≠ x) :
    ((l.filter (fun z => z != x)).contains y) = l.contains y := by
  by_cases hy : y ∈ l
  · have h1 : y ∈ l.filter (fun z => z != x) := List.mem_filter.mpr ⟨hy, by simp [h]⟩
    simp [h1, hy]
  · have h1 : y ∉ l.filter (fun z => z != x) := fun hc => hy (List.mem_of_mem_filter hc)
    simp [h1, hy]

theorem alLookup_none_of_alDelete_nil {α : Type} {cid k : String} {l : List (String × α)}
    (hnil : alDelete cid l = []) (h : k ≠ cid) : alLookup k l = none := by
  cases hv : alLookup k l with
  | none => rfl
  | some v =>
    have hmem := mem_keys_of_alLookup hv
    have : (k, v) ∈ alDelete cid l := List.mem_filter.mpr ⟨hmem, by simp [h]⟩
    rw [hnil] at this
    simp at this

theorem isSome_alLookup_alSet_ne {α : Type} {k cid : String} {v : α} {l : List (String × α)}
    (h : k ≠ cid) : (alLookup k (alSet cid v l)).isSome = (alLookup k l).isSome := by
  rw [alLookup_alSet_ne cid k v l (Ne.symm h)]

theorem inRoomUsers_joinRoomFn_self (s : RelayState) (cid rid0 fid uname : String) (k : Nat) :
    inRoomUsers (joinRoomFn s cid rid0 fid uname k).1 rid0 cid = true := by
  unfold inRoomUsers
  simp only [joinRoomFn]
  rw [alLookup_alSet_self]
  simp [alLookup_alSet_self]

theorem inRoomUsers_joinRoomFn_otherroom (s : RelayState) (cid rid0 fid uname : String)
    (k : Nat) (rid d : String) (h : rid ≠ rid0) :
    inRoomUsers (joinRoomFn s cid rid0 fid uname k).1 rid d = inRoomUsers s rid d := by
  unfold inRoomUsers
  simp only [joinRoomFn]
  rw [alLookup_alSet_ne rid0 rid _ _ (Ne.symm h)]

theorem inRoomUsers_joinRoomFn_otherconn (s : RelayState) (cid rid0 fid uname : String)
    (k : Nat) (d : String) (h : d ≠ cid) :
    inRoomUsers (joinRoomFn s cid rid0 fid uname k).1 rid0 d = inRoomUsers s rid0 d := by
  unfold inRoomUsers
  simp only [joinRoomFn]
  rw [alLookup_alSet_self]
  simp only
  rw [alLookup_alSet_ne cid d _ _ (Ne.symm h)]
  unfold joinBase
  cases hl : alLookup rid0 s.rooms with
  | none => simp [alLookup]
  | some base => rfl

theorem inRoomUsers_leaveRoomFn_self (s : RelayState) (cid rid0 : String) :
    inRoomUsers (leaveRoomFn s cid rid0).1 rid0 cid = false := by
  unfold inRoomUsers leaveRoomFn
  cases hl : alLookup rid0 s.rooms with
  | none => simp only [hl]
  | some rmOld =>
    simp only [hl]
    by_cases he : (alDelete cid rmOld.users).isEmpty
    · rw [if_pos he, alLookup_alDelete_self]
    · rw [if_neg he, alLookup_alSet_self]
      simp [alLookup_alDelete_self]

theorem inRoomUsers_leaveRoomFn_otherroom (s : RelayState) (cid rid0 rid d : String)
    (h : rid ≠ rid0) :
    inRoomUsers (leaveRoomFn s cid rid0).1 rid d = inRoomUsers s rid d := by
  unfold inRoomUsers leaveRoomFn
  cases hl : alLookup rid0 s.rooms with
  | none => simp only [hl]
  | some rmOld =>
    simp only [hl]
    by_cases he : (alDelete cid rmOld.users).isEmpty
    · rw [if_pos he, alLookup_alDelete_ne _ _ _ (Ne.symm h)]
    · rw [if_neg he, alLookup_alSet_ne _ _ _ _ (Ne.symm h)]

theorem inRoomUsers_leaveRoomFn_otherconn (s : RelayState) (cid rid0 d : String)
    (h : d ≠ cid) :
    inRoomUsers (leaveRoomFn s cid rid0).1 rid0 d = inRoomUsers s rid0 d := by
  unfold inRoomUsers leaveRoomFn
  cases hl : alLookup rid0 s.rooms with
  | none => simp only [hl]
  | some rmOld =>
    simp only [hl]
    by_cases he : (alDelete cid rmOld.users).isEmpty
    · rw [if_pos he, alLookup_alDelete_self]
      rw [List.isEmpty_iff] at he
      rw [alLookup_none_of_alDelete_nil he h]
      rfl
    · rw [if_neg he, alLookup_alSet_self]
      simp only
      rw [alLookup_alDelete_ne _ _ _ (Ne.symm h)]

theorem inRoomUsers_cursorMoveFn (s : RelayState) (cid : String) (u : CollabUser)
    (line col : Nat) (rid0 rid d : String) :
    inRoomUsers (cursorMoveFn s cid u line col rid0).1 rid d = inRoomUsers s rid d := by
  unfold cursorMoveFn
  cases hl : alLookup rid0 s.rooms with
  | none =>
    simp only [hl]
    rfl
  | some rmOld =>
    simp only [hl]
    cases hcu : alLookup cid rmOld.users with
    | none =>
      simp only [hcu]
      rfl
    | some entry =>
      simp only [hcu]
      unfold inRoomUsers
      by_cases h : rid = rid0
      · subst h
        rw [alLookup_alSet_self, hl]
        simp only
        by_cases h2 : d = cid
        · subst h2
          rw [alLookup_alSet_self, hcu]
          rfl
        · rw [alLookup_alSet_ne cid d _ _ (Ne.symm h2)]
      · rw [alLookup_alSet_ne rid0 rid _ _ (Ne.symm h)]

theorem inRoomUsers_codeChangeFn (s : RelayState) (cid rid0 : String) (rm : Room)
    (txt : String) (now : Nat) (hl : alLookup rid0 s.rooms = some rm) (rid d : String) :
    inRoomUsers (codeChangeFn s cid rid0 rm txt now).1 rid d = inRoomUsers s rid d := by
  unfold inRoomUsers codeChangeFn
  by_cases h : rid = rid0
  · subst h
    rw [alLookup_alSet_self, hl]
  · rw [alLookup_alSet_ne rid0 rid _ _ (Ne.symm h)]

theorem contains_append_one (l : List String) (x y : String) :
    ((l ++ [x]).contains y) = (l.contains y || (x == y)) := by
  by_cases h1 : y ∈ l
  · simp [h1]
  · by_cases h2 : x = y
    · simp [h1, h2]
    · have h3 : ¬y = x := fun he => h2 he.symm
      simp [h1, h2, h3]

theorem joinRoomFn_conns (s : RelayState) (cid rid fid uname : String) (k : Nat) :
    (joinRoomFn s cid rid fid uname k).1.conns =
      updateConn cid (fun cn =>
        { cn with currentRoomId := some rid, currentUser := some (joinUser cid uname k),
                  joinedRooms :=
                    if cn.joinedRooms.contains rid then cn.joinedRooms
                    else cn.joinedRooms ++ [rid] }) s.conns := rfl

theorem leaveRoomFn_conns (s : RelayState) (cid rid0 : String) :
    (leaveRoomFn s cid rid0).1.conns =
      updateConn cid (fun cn =>
        { cn with joinedRooms := cn.joinedRooms.filter (· != rid0) }) s.conns := by
  unfold leaveRoomFn
  cases hl : alLookup rid0 s.rooms with
  | none => rfl
  | some rm => rfl

theorem cursorMoveFn_conns (s : RelayState) (cid : String) (u : CollabUser)
    (line col : Nat) (rid : String) :
    (cursorMoveFn s cid u line col rid).1.conns =
      updateConn cid (fun c =>
        { c with currentUser := some { u with cursor := some (line, col) } }) s.conns := rfl


theorem joined_if_contains (l : List String) (rid0 rid : String) :
    ((if l.contains rid0 then l else l ++ [rid0]).contains rid) =
      (l.contains rid || (rid0 == rid)) := by
  by_cases h : l.contains rid0 = true
  · rw [if_pos h]
    by_cases h2 : rid0 = rid
    · subst h2
      rw [h]
      simp
    · have hb : (rid0 == rid) = false := by simp [h2]
      rw [hb, Bool.or_false]
  · rw [if_neg h]
    exact contains_append_one l rid0 rid

theorem inv_joinRoomFn (s : RelayState) (cid rid0 fid uname : String) (k : Nat)
    (seen : List String) (cn : Conn) (hf : findConn cid s.conns = some cn)
    (hseen : SeenOK s seen) (hinv : MembershipInv s) :
    SeenOK (joinRoomFn s cid rid0 fid uname k).1 seen ∧
      MembershipInv (joinRoomFn s cid rid0 fid uname k).1 := by
  have hcid : cid ∈ seen := by
    obtain ⟨hm, he⟩ := findConn_eq_some hf
    exact he ▸ hseen.1 cn hm
  constructor
  · constructor
    · intro cn' hm'
      rw [joinRoomFn_conns] at hm'
      rcases mem_updateConn hm' with ⟨c, hc, he⟩
      by_cases hb : c.sockId = cid
      · rw [if_pos (by simp [hb])] at he
        rw [he]
        simpa [hb] using hseen.1 c hc
      · rw [if_neg (by simp [hb])] at he
        rw [he]
        exact hseen.1 c hc
    · intro rid rm hm p hp
      simp only [joinRoomFn] at hm
      rcases alLookup_alSet_cases hm with ⟨_, hrm⟩ | ⟨_, hrm⟩
      · subst hrm
        simp only at hp
        rcases mem_alSet hp with h1 | h1
        · rw [h1]
          exact hcid
        · unfold joinBase at h1
          cases hl : alLookup rid0 s.rooms with
          | none =>
            rw [hl] at h1
            simp at h1
          | some base =>
            rw [hl] at h1
            exact hseen.2 rid0 base hl p h1
      · exact hseen.2 rid rm hrm p hp
  · intro cn' hm' rid
    rw [joinRoomFn_conns] at hm'
    rcases mem_updateConn hm' with ⟨c, hc, he⟩
    by_cases hb : c.sockId = cid
    · rw [if_pos (by simp [hb])] at he
      rw [he]
      simp only
      rw [joined_if_contains]
      by_cases hrid : rid = rid0
      · subst hrid
        rw [hb, inRoomUsers_joinRoomFn_self]
        simp
      · have hbe : (rid0 == rid) = false := by
          simp
          exact fun hx => hrid hx.symm
        rw [hbe, Bool.or_false, hinv c hc rid, hb]
        rw [inRoomUsers_joinRoomFn_otherroom s cid rid0 fid uname k rid cid hrid]
    · rw [if_neg (by simp [hb])] at he
      rw [he]
      by_cases hrid : rid = rid0
      · subst hrid
        rw [hinv c hc rid]
        rw [inRoomUsers_joinRoomFn_otherconn s cid rid fid uname k c.sockId hb]
      · rw [hinv c hc rid]
        rw [inRoomUsers_joinRoomFn_otherroom s cid rid0 fid uname k rid c.sockId hrid]

theorem inv_leaveRoomFn (s : RelayState) (cid rid0 : String) (seen : List String)
    (hseen : SeenOK s seen) (hinv : MembershipInv s) :
    SeenOK (leaveRoomFn s cid rid0).1 seen ∧ MembershipInv (leaveRoomFn s cid rid0).1 := by
  constructor
  · constructor
    · intro cn' hm'
      rw [leaveRoomFn_conns] at hm'
      rcases mem_updateConn hm' with ⟨c, hc, he⟩
      by_cases hb : c.sockId = cid
      · rw [if_pos (by simp [hb])] at he
        rw [he]
        exact hseen.1 c hc
      · rw [if_neg (by simp [hb])] at he
        rw [he]
        exact hseen.1 c hc
    · intro rid rm hm p hp
      unfold leaveRoomFn at hm
      cases hl : alLookup rid0 s.rooms with
      | none =>
        simp only [hl] at hm
        exact hseen.2 rid rm hm p hp
      | some rmOld =>
        simp only [hl] at hm
        by_cases he : (alDelete cid rmOld.users).isEmpty
        · rw [if_pos he] at hm
          exact hseen.2 rid rm (alLookup_alDelete_cases hm).2 p hp
        · rw [if_neg he] at hm
          rcases alLookup_alSet_cases hm with ⟨_, hrm⟩ | ⟨_, hrm⟩
          · subst hrm
            exact hseen.2 rid0 rmOld hl p (mem_alDelete_subset hp)
          · exact hseen.2 rid rm hrm p hp
  · intro cn' hm' rid
    rw [leaveRoomFn_conns] at hm'
    rcases mem_updateConn hm' with ⟨c, hc, he⟩
    by_cases hb : c.sockId = cid
    · rw [if_pos (by simp [hb])] at he
      rw [he]
      simp only
      by_cases hrid : rid = rid0
      · subst hrid
        rw [hb, inRoomUsers_leaveRoomFn_self]
        exact contains_filter_ne_self _ _
      · rw [contains_filter_ne _ _ _ hrid, hinv c hc rid, hb]
        rw [inRoomUsers_leaveRoomFn_otherroom s cid rid0 rid cid hrid]
    · rw [if_neg (by simp [hb])] at he
      rw [he]
      by_cases hrid : rid = rid0
      · subst hrid
        rw [hinv c hc rid]
        rw [inRoomUsers_leaveRoomFn_otherconn s cid rid c.sockId hb]
      · rw [hinv c hc rid]
        rw [inRoomUsers_leaveRoomFn_otherroom s cid rid0 rid c.sockId hrid]

theorem inRoomUsers_conns_irrel (s : RelayState) (cs : List Conn) (rid d : String) :
    inRoomUsers ⟨s.rooms, cs⟩ rid d = inRoomUsers s rid d := rfl

theorem inv_cursorMoveFn (s : RelayState) (cid : String) (u : CollabUser)
    (line col : Nat) (rid0 : String) (seen : List String) (cn : Conn)
    (hf : findConn cid s.conns = some cn)
    (hseen : SeenOK s seen) (hinv : MembershipInv s) :
    SeenOK (cursorMoveFn s cid u line col rid0).1 seen ∧
      MembershipInv (cursorMoveFn s cid u line col rid0).1 := by
  have hcid : cid ∈ seen := by
    obtain ⟨hm, he⟩ := findConn_eq_some hf
    exact he ▸ hseen.1 cn hm
  constructor
  · constructor
    · intro cn' hm'
      rw [cursorMoveFn_conns] at hm'
      rcases mem_updateConn hm' with ⟨c, hc, he⟩
      by_cases hb : c.sockId = cid
      · rw [if_pos (by simp [hb])] at he
        rw [he]
        exact hseen.1 c hc
      · rw [if_neg (by simp [hb])] at he
        rw [he]
        exact hseen.1 c hc
    · intro rid rm hm p hp
      unfold cursorMoveFn at hm
      cases hl : alLookup rid0 s.rooms with
      | none =>
        simp only [hl] at hm
        exact hseen.2 rid rm hm p hp
      | some rmOld =>
        simp only [hl] at hm
        cases hcu : alLookup cid rmOld.users with
        | none =>
          simp only [hcu] at hm
          exact hseen.2 rid rm hm p hp
        | some entry =>
          simp only [hcu] at hm
          rcases alLookup_alSet_cases hm with ⟨_, hrm⟩ | ⟨_, hrm⟩
          · subst hrm
            simp only at hp
            rcases mem_alSet hp with h1 | h1
            · rw [h1]
              exact hcid
            · exact hseen.2 rid0 rmOld hl p h1
          · exact hseen.2 rid rm hrm p hp
  · intro cn' hm' rid
    rw [cursorMoveFn_conns] at hm'
    rcases mem_updateConn hm' with ⟨c, hc, he⟩
    rw [inRoomUsers_cursorMoveFn]
    by_cases hb : c.sockId = cid
    · rw [if_pos (by simp [hb])] at he
      rw [he]
      exact hinv c hc rid
    · rw [if_neg (by simp [hb])] at he
      rw [he]
      exact hinv c hc rid

theorem inv_codeChangeFn (s : RelayState) (cid rid0 : String) (rm : Room)
    (txt : String) (now : Nat) (hl : alLookup rid0 s.rooms = some rm)
    (seen : List String) (hseen : SeenOK s seen) (hinv : MembershipInv s) :
    SeenOK (codeChangeFn s cid rid0 rm txt now).1 seen ∧
      MembershipInv (codeChangeFn s cid rid0 rm txt now).1 := by
  constructor
  · constructor
    · intro cn' hm'
      exact hseen.1 cn' hm'
    · intro rid rm' hm p hp
      simp only [codeChangeFn] at hm
      rcases alLookup_alSet_cases hm with ⟨_, hrm⟩ | ⟨_, hrm⟩
      · subst hrm
        exact hseen.2 rid0 rm hl p hp
      · exact hseen.2 rid rm' hrm p hp
  · intro cn' hm' rid
    rw [inRoomUsers_codeChangeFn s cid rid0 rm txt now hl]
    exact hinv cn' hm' rid

theorem inv_step (s : RelayState) (e : Event) (seen : List String)
    (hseen : SeenOK s seen) (hinv : MembershipInv s)
    (hok : ∀ cid, e = .connect cid → seen.contains cid = false) :
    SeenOK (step1 s e) (seenAfter seen e) ∧ MembershipInv (step1 s e) := by
  cases e with
  | connect cid =>
    have hnotin : cid ∉ seen := by
      have := hok cid rfl
      simpa using this
    cases hf : findConn cid s.conns with
    | some cn =>
      rw [step1, relayStep_connect_live (by simp [hf])]
      refine ⟨⟨?_, ?_⟩, hinv⟩
      · intro cn' hm'
        exact List.mem_cons_of_mem _ (hseen.1 cn' hm')
      · intro rid rm hm p hp
        exact List.mem_cons_of_mem _ (hseen.2 rid rm hm p hp)
    | none =>
      rw [step1, relayStep_connect_fresh hf]
      refine ⟨⟨?_, ?_⟩, ?_⟩
      · intro cn' hm'
        rcases List.mem_append.mp hm' with h1 | h1
        · exact List.mem_cons_of_mem _ (hseen.1 cn' h1)
        · simp only [List.mem_singleton] at h1
          rw [h1]
          exact List.mem_cons_self _ _
      · intro rid rm hm p hp
        exact List.mem_cons_of_mem _ (hseen.2 rid rm hm p hp)
      · intro cn' hm' rid
        rcases List.mem_append.mp hm' with h1 | h1
        · rw [show ({ s with conns := s.conns ++ [⟨cid, none, none, []⟩] } : RelayState) =
              ⟨s.rooms, s.conns ++ [⟨cid, none, none, []⟩]⟩ from rfl,
            inRoomUsers_conns_irrel]
          exact hinv cn' h1 rid
        · simp only [List.mem_singleton] at h1
          rw [h1]
          simp only
          rw [show ({ s with conns := s.conns ++ [⟨cid, none, none, []⟩] } : RelayState) =
              ⟨s.rooms, s.conns ++ [⟨cid, none, none, []⟩]⟩ from rfl,
            inRoomUsers_conns_irrel]
          cases hu : inRoomUsers s rid cid with
          | false => simp
          | true =>
            exfalso
            unfold inRoomUsers at hu
            cases hl : alLookup rid s.rooms with
            | none => rw [hl] at hu; simp at hu
            | some rm =>
              rw [hl] at hu
              rcases Option.isSome_iff_exists.mp hu with ⟨v, hv⟩
              exact hnotin (hseen.2 rid rm hl (cid, v) (mem_keys_of_alLookup hv))
  | joinRoom cid rid fid uname k =>
    cases hf : findConn cid s.conns with
    | none =>
      rw [step1, relayStep_join_unknown hf]
      exact ⟨hseen, hinv⟩
    | some cn =>
      rw [step1, relayStep_join hf]
      exact inv_joinRoomFn s cid rid fid uname k seen cn hf hseen hinv
  | leaveRoomEv cid =>
    cases hf : findConn cid s.conns with
    | none =>
      rw [step1, relayStep_leave_unknown hf]
      exact ⟨hseen, hinv⟩
    | some cn =>
      cases hr : cn.currentRoomId with
      | none =>
        rw [step1, relayStep_leave_noroom hf hr]
        exact ⟨hseen, hinv⟩
      | some rid =>
        cases hu : cn.currentUser with
        | none =>
          rw [step1, relayStep_leave_nouser hf hr hu]
          exact ⟨hseen, hinv⟩
        | some u =>
          rw [step1, relayStep_leave hf hr hu]
          exact inv_leaveRoomFn s cid rid seen hseen hinv
  | cursorMove cid line col =>
    cases hf : findConn cid s.conns with
    | none =>
      rw [step1, relayStep_cursor_unknown hf]
      exact ⟨hseen, hinv⟩
    | some cn =>
      cases hr : cn.currentRoomId with
      | none =>
        rw [step1, relayStep_cursor_noroom hf hr]
        exact ⟨hseen, hinv⟩
      | some rid =>
        cases hu : cn.currentUser with
        | none =>
          rw [step1, relayStep_cursor_nouser hf hr hu]
          exact ⟨hseen, hinv⟩
        | some u =>
          rw [step1, relayStep_cursor hf hr hu]
          exact inv_cursorMoveFn s cid u line col rid seen cn hf hseen hinv
  | codeChange cid txt now =>
    cases hf : findConn cid s.conns with
    | none =>
      rw [step1, relayStep_code_unknown hf]
      exact ⟨hseen, hinv⟩
    | some cn =>
      cases hr : cn.currentRoomId with
      | none =>
        rw [step1, relayStep_code_noroom hf hr]
        exact ⟨hseen, hinv⟩
      | some rid =>
        cases hl : alLookup rid s.rooms with
        | none =>
          rw [step1, relayStep_code_noentry hf hr hl]
          exact ⟨hseen, hinv⟩
        | some rm =>
          rw [step1, relayStep_code hf hr hl]
          exact inv_codeChangeFn s cid rid rm txt now hl seen hseen hinv
  | syncRequest cid =>
    cases hf : findConn cid s.conns with
    | none =>
      rw [step1, relayStep_sync_unknown hf]
      exact ⟨hseen, hinv⟩
    | some cn =>
      cases hr : cn.currentRoomId with
      | none =>
        rw [step1, relayStep_sync_noroom hf hr]
        exact ⟨hseen, hinv⟩
      | some rid =>
        cases hl : alLookup rid s.rooms with
        | none =>
          rw [step1, relayStep_sync_noentry hf hr hl]
          exact ⟨hseen, hinv⟩
        | some rm =>
          rw [step1, relayStep_sync hf hr hl]
          exact ⟨hseen, hinv⟩
  | disconnect cid =>
    cases hf : findConn cid s.conns with
    | none =>
      rw [step1, relayStep_disc_unknown hf]
      exact ⟨hseen, hinv⟩
    | some cn =>
      rw [step1, relayStep_disc hf]
      have base : SeenOK (match cn.currentRoomId, cn.currentUser with
            | some rid, some _ => leaveRoomFn s cid rid
            | _, _ => (s, [])).1 seen ∧
          MembershipInv (match cn.currentRoomId, cn.currentUser with
            | some rid, some _ => leaveRoomFn s cid rid
            | _, _ => (s, [])).1 := by
        cases hr : cn.currentRoomId with
        | none => exact ⟨hseen, hinv⟩
        | some rid =>
          cases hu : cn.currentUser with
          | none => exact ⟨hseen, hinv⟩
          | some u => exact inv_leaveRoomFn s cid rid seen hseen hinv
      obtain ⟨b1, b2⟩ := base
      unfold disconnectFn
      refine ⟨⟨?_, ?_⟩, ?_⟩
      · intro cn' hm'
        exact b1.1 cn' (List.mem_of_mem_filter hm')
      · intro rid rm hm p hp
        exact b1.2 rid rm hm p hp
      · intro cn' hm' rid
        have hm2 := List.mem_of_mem_filter hm'
        exact b2 cn' hm2 rid

theorem inv_runFrom (evs : List Event) : ∀ (seen : List String) (s : RelayState),
    SeenOK s seen → MembershipInv s → freshConnects seen evs = true →
    ∃ seen', SeenOK (runFrom s evs) seen' ∧ MembershipInv (runFrom s evs) := by
  induction evs with
  | nil =>
    intro seen s h1 h2 _
    exact ⟨seen, h1, h2⟩
  | cons e rest ih =>
    intro seen s h1 h2 hfresh
    cases e with
    | connect cid =>
      simp only [freshConnects, Bool.and_eq_true, Bool.not_eq_true'] at hfresh
      have hstep := inv_step s (.connect cid) seen h1 h2
        (fun c hc => by cases hc; exact hfresh.1)
      exact ih (cid :: seen) (step1 s (.connect cid)) hstep.1 hstep.2 hfresh.2
    | joinRoom cid rid fid uname k =>
      simp only [freshConnects] at hfresh
      have hstep := inv_step s (.joinRoom cid rid fid uname k) seen h1 h2 (fun c hc => by cases hc)
      exact ih seen _ hstep.1 hstep.2 hfresh
    | leaveRoomEv cid =>
      simp only [freshConnects] at hfresh
      have hstep := inv_step s (.leaveRoomEv cid) seen h1 h2 (fun c hc => by cases hc)
      exact ih seen _ hstep.1 hstep.2 hfresh
    | cursorMove cid line col =>
      simp only [freshConnects] at hfresh
      have hstep := inv_step s (.cursorMove cid line col) seen h1 h2 (fun c hc => by cases hc)
      exact ih seen _ hstep.1 hstep.2 hfresh
    | codeChange cid txt now =>
      simp only [freshConnects] at hfresh
      have hstep := inv_step s (.codeChange cid txt now) seen h1 h2 (fun c hc => by cases hc)
      exact ih seen _ hstep.1 hstep.2 hfresh
    | syncRequest cid =>
      simp only [freshConnects] at hfresh
      have hstep := inv_step s (.syncRequest cid) seen h1 h2 (fun c hc => by cases hc)
      exact ih seen _ hstep.1 hstep.2 hfresh
    | disconnect cid =>
      simp only [freshConnects] at hfresh
      have hstep := inv_step s (.disconnect cid) seen h1 h2 (fun c hc => by cases hc)
      exact ih seen _ hstep.1 hstep.2 hfresh

theorem inv_relayRun (evs : List Event) (hfresh : freshConnects [] evs = true) :
    ∃ seen, SeenOK (relayRun evs) seen ∧ MembershipInv (relayRun evs) := by
  apply inv_runFrom evs [] relayInit
  · constructor
    · intro cn hm
      simp [relayInit] at hm
    · intro rid rm hm
      simp [relayInit, alLookup] at hm
  · intro cn hm
    simp [relayInit] at hm
  · exact hfresh

/-- Under the membership invariant, `socket.to(roomId)` reaches exactly the
live connections recorded as participants of the room, except the
sender. -/
theorem broadcast_eq_recorded (s : RelayState) (rid sender : String) (p : Payload)
    (hinv : MembershipInv s) :
    broadcastTo s.conns rid sender p =
      (recordedOthers s rid sender).map (fun d => ⟨d, rid, p⟩) := by
  unfold broadcastTo recordedOthers
  rw [List.map_map]
  congr 1
  apply List.filter_congr
  intro cn hm
  rw [hinv cn hm rid]

theorem broadcastTo_updateConn_sender (cs : List Conn) (sender : String) (f : Conn → Conn)
    (rid : String) (p : Payload) (hid : ∀ c, (f c).sockId = c.sockId) :
    broadcastTo (updateConn sender f cs) rid sender p = broadcastTo cs rid sender p := by
  unfold broadcastTo updateConn
  induction cs with
  | nil => simp
  | cons c t ih =>
    simp only [List.map_cons, List.filter_cons]
    by_cases hb : c.sockId = sender
    · have h1 : ((if c.sockId == sender then f c else c).joinedRooms.contains rid &&
          (if c.sockId == sender then f c else c).sockId != sender) = false := by
        rw [if_pos (by simp [hb])]
        simp [hid, hb]
      have h2 : (c.joinedRooms.contains rid && c.sockId != sender) = false := by
        simp [hb]
      rw [h1, h2]
      simp only [if_neg Bool.false_ne_true]
      exact ih
    · have he : (if c.sockId == sender then f c else c) = c := by
        rw [if_neg (by simp [hb])]
      rw [he]
      by_cases hc : (c.joinedRooms.contains rid && c.sockId != sender) = true
      · rw [if_pos hc, if_pos hc]
        simp only [List.map_cons]
        rw [ih]
      · rw [Bool.not_eq_true] at hc
        rw [hc]
        simp only [if_neg Bool.false_ne_true]
        exact ih

theorem joinRoomFn_msgs (s : RelayState) (cid rid fid uname : String) (k : Nat) :
    (joinRoomFn s cid rid fid uname k).2 =
      broadcastTo (joinRoomFn s cid rid fid uname k).1.conns rid cid
        (.userJoined (joinUser cid uname k)
          ((alSet cid (joinUser cid uname k) (joinBase s rid fid).users).map Prod.snd)) ++
      [⟨cid, rid, .syncResponse (joinBase s rid fid).content
          ((alSet cid (joinUser cid uname k) (joinBase s rid fid).users).map Prod.snd)⟩] := rfl

theorem leaveRoomFn_msgs_some {s : RelayState} {cid rid : String} {rmOld : Room}
    (hl : alLookup rid s.rooms = some rmOld) :
    (leaveRoomFn s cid rid).2 =
      broadcastTo s.conns rid cid
        (.userLeft cid ((alDelete cid rmOld.users).map Prod.snd)) := by
  unfold leaveRoomFn
  simp only [hl]

theorem leaveRoomFn_msgs_none {s : RelayState} {cid rid : String}
    (hl : alLookup rid s.rooms = none) :
    (leaveRoomFn s cid rid).2 = [] := by
  unfold leaveRoomFn
  simp only [hl]

theorem recordedOthers_no_room {s : RelayState} {rid : String} (sender : String)
    (hl : alLookup rid s.rooms = none) : recordedOthers s rid sender = [] := by
  unfold recordedOthers
  have h : ∀ cn ∈ s.conns, ¬((inRoomUsers s rid cn.sockId && cn.sockId != sender) = true) := by
    intro cn _
    unfold inRoomUsers
    rw [hl]
    simp
  rw [List.filter_eq_nil_iff.mpr h]
  rfl

/-- C3: over any trace with transport-fresh socket ids, every broadcast the
relay sends is delivered exactly to the live connections currently recorded
as participants of the target room, never to the triggering connection and
never to a connection not recorded in that room; and the two sync responses
(on join and on syncRequest) are delivered to the triggering connection
only.  For join/leave the recorded set is the one after the membership
update; cursor and code events leave membership unchanged. -/
theorem broadcast_scope_rule (evs : List Event) (hfresh : freshConnects [] evs = true) :
    (∀ cid line col cn rid u, findConn cid (relayRun evs).conns = some cn →
      cn.currentRoomId = some rid → cn.currentUser = some u →
      stepMsgs (relayRun evs) (.cursorMove cid line col) =
        (recordedOthers (relayRun evs) rid cid).map
          (fun d => ⟨d, rid, .cursorMoved cid line col⟩)) ∧
    (∀ cid txt now cn rid rm, findConn cid (relayRun evs).conns = some cn →
      cn.currentRoomId = some rid → alLookup rid (relayRun evs).rooms = some rm →
      stepMsgs (relayRun evs) (.codeChange cid txt now) =
        (recordedOthers (relayRun evs) rid cid).map
          (fun d => ⟨d, rid, .codeChanged txt cid now⟩)) ∧
    (∀ cid rid fid uname k cn, findConn cid (relayRun evs).conns = some cn →
      stepMsgs (relayRun evs) (.joinRoom cid rid fid uname k) =
        (recordedOthers (step1 (relayRun evs) (.joinRoom cid rid fid uname k)) rid cid).map
          (fun d => ⟨d, rid, .userJoined (joinUser cid uname k)
            ((alSet cid (joinUser cid uname k)
              (joinBase (relayRun evs) rid fid).users).map Prod.snd)⟩) ++
        [⟨cid, rid, .syncResponse (joinBase (relayRun evs) rid fid).content
            ((alSet cid (joinUser cid uname k)
              (joinBase (relayRun evs) rid fid).users).map Prod.snd)⟩]) ∧
    (∀ cid cn rid u, findConn cid (relayRun evs).conns = some cn →
      cn.currentRoomId = some rid → cn.currentUser = some u →
      ∃ us, stepMsgs (relayRun evs) (.leaveRoomEv cid) =
        (recordedOthers (step1 (relayRun evs) (.leaveRoomEv cid)) rid cid).map
          (fun d => ⟨d, rid, .userLeft cid us⟩)) ∧
    (∀ cid cn rid rm, findConn cid (relayRun evs).conns = some cn →
      cn.currentRoomId = some rid → alLookup rid (relayRun evs).rooms = some rm →
      stepMsgs (relayRun evs) (.syncRequest cid) =
        [⟨cid, rid, .syncResponse rm.content (rm.users.map Prod.snd)⟩]) ∧
    (∀ cid cn rid u, findConn cid (relayRun evs).conns = some cn →
      cn.currentRoomId = some rid → cn.currentUser = some u →
      ∃ us, stepMsgs (relayRun evs) (.disconnect cid) =
        (recordedOthers (leaveRoomFn (relayRun evs) cid rid).1 rid cid).map
          (fun d => ⟨d, rid, .userLeft cid us⟩)) := by
  obtain ⟨seen, hseen, hinv⟩ := inv_relayRun evs hfresh
  refine ⟨?_, ?_, ?_, ?_, ?_, ?_⟩
  · intro cid line col cn rid u hf hr hu
    rw [stepMsgs, relayStep_cursor hf hr hu]
    show broadcastTo (relayRun evs).conns rid cid (.cursorMoved cid line col) = _
    exact broadcast_eq_recorded (relayRun evs) rid cid _ hinv
  · intro cid txt now cn rid rm hf hr hl
    rw [stepMsgs, relayStep_code hf hr hl]
    show broadcastTo (relayRun evs).conns rid cid (.codeChanged txt cid now) = _
    exact broadcast_eq_recorded (relayRun evs) rid cid _ hinv
  · intro cid rid fid uname k cn hf
    have hinv' : MembershipInv (joinRoomFn (relayRun evs) cid rid fid uname k).1 :=
      (inv_joinRoomFn (relayRun evs) cid rid fid uname k seen cn hf hseen hinv).2
    have hs' : step1 (relayRun evs) (.joinRoom cid rid fid uname k) =
        (joinRoomFn (relayRun evs) cid rid fid uname k).1 := by
      rw [step1, relayStep_join hf]
    rw [stepMsgs, relayStep_join hf, joinRoomFn_msgs, hs']
    congr 1
    exact broadcast_eq_recorded (joinRoomFn (relayRun evs) cid rid fid uname k).1 rid cid _ hinv'
  · intro cid cn rid u hf hr hu
    have hinv' : MembershipInv (leaveRoomFn (relayRun evs) cid rid).1 :=
      (inv_leaveRoomFn (relayRun evs) cid rid seen hseen hinv).2
    have hs' : step1 (relayRun evs) (.leaveRoomEv cid) =
        (leaveRoomFn (relayRun evs) cid rid).1 := by
      rw [step1, relayStep_leave hf hr hu]
    cases hl : alLookup rid (relayRun evs).rooms with
    | none =>
      refine ⟨[], ?_⟩
      rw [stepMsgs, relayStep_leave hf hr hu, leaveRoomFn_msgs_none hl, hs']
      have hl' : alLookup rid (leaveRoomFn (relayRun evs) cid rid).1.rooms = none := by
        unfold leaveRoomFn
        simp only [hl]
      rw [recordedOthers_no_room cid hl']
      simp
    | some rmOld =>
      refine ⟨(alDelete cid rmOld.users).map Prod.snd, ?_⟩
      rw [stepMsgs, relayStep_leave hf hr hu, leaveRoomFn_msgs_some hl, hs']
      rw [show broadcastTo (relayRun evs).conns rid cid
            (.userLeft cid ((alDelete cid rmOld.users).map Prod.snd)) =
          broadcastTo (leaveRoomFn (relayRun evs) cid rid).1.conns rid cid
            (.userLeft cid ((alDelete cid rmOld.users).map Prod.snd)) from by
        rw [leaveRoomFn_conns]
        exact (broadcastTo_updateConn_sender (relayRun evs).conns cid
          (fun cn => { cn with joinedRooms := cn.joinedRooms.filter (fun x => x != rid) })
          rid (.userLeft cid ((alDelete cid rmOld.users).map Prod.snd))
          (fun c => rfl)).symm]
      exact broadcast_eq_recorded (leaveRoomFn (relayRun evs) cid rid).1 rid cid _ hinv'
  · intro cid cn rid rm hf hr hl
    rw [stepMsgs, relayStep_sync hf hr hl]
  · intro cid cn rid u hf hr hu
    have hinv' : MembershipInv (leaveRoomFn (relayRun evs) cid rid).1 :=
      (inv_leaveRoomFn (relayRun evs) cid rid seen hseen hinv).2
    have hmsgs : stepMsgs (relayRun evs) (.disconnect cid) =
        (leaveRoomFn (relayRun evs) cid rid).2 := by
      rw [stepMsgs, relayStep_disc hf]
      unfold disconnectFn
      simp only [hr, hu]
    cases hl : alLookup rid (relayRun evs).rooms with
    | none =>
      refine ⟨[], ?_⟩
      rw [hmsgs, leaveRoomFn_msgs_none hl]
      have hl' : alLookup rid (leaveRoomFn (relayRun evs) cid rid).1.rooms = none := by
        unfold leaveRoomFn
        simp only [hl]
      rw [recordedOthers_no_room cid hl']
      simp
    | some rmOld =>
      refine ⟨(alDelete cid rmOld.users).map Prod.snd, ?_⟩
      rw [hmsgs, leaveRoomFn_msgs_some hl]
      rw [show broadcastTo (relayRun evs).conns rid cid
            (.userLeft cid ((alDelete cid rmOld.users).map Prod.snd)) =
          broadcastTo (leaveRoomFn (relayRun evs) cid rid).1.conns rid cid
            (.userLeft cid ((alDelete cid rmOld.users).map Prod.snd)) from by
        rw [leaveRoomFn_conns]
        exact (broadcastTo_updateConn_sender (relayRun evs).conns cid
          (fun cn => { cn with joinedRooms := cn.joinedRooms.filter (fun x => x != rid) })
          rid (.userLeft cid ((alDelete cid rmOld.users).map Prod.snd))
          (fun c => rfl)).symm]
      exact broadcast_eq_recorded (leaveRoomFn (relayRun evs) cid rid).1 rid cid _ hinv'

/-- Witness for C3 at a concrete trace: in room `r` with `A` and `B`, `A`'s
code change goes to exactly the other recorded participant, and `B`'s
syncRequest is answered only to `B`. -/
theorem broadcast_scope_rule_witness :
    stepMsgs (relayRun [.connect "A", .connect "B", .joinRoom "A" "r" "f" "alice" 0,
        .joinRoom "B" "r" "f" "bob" 1]) (.codeChange "A" "x" 7) =
      (recordedOthers (relayRun [.connect "A", .connect "B",
          .joinRoom "A" "r" "f" "alice" 0, .joinRoom "B" "r" "f" "bob" 1]) "r" "A").map
        (fun d => ⟨d, "r", .codeChanged "x" "A" 7⟩) ∧
    stepMsgs (relayRun [.connect "A", .connect "B", .joinRoom "A" "r" "f" "alice" 0,
        .joinRoom "B" "r" "f" "bob" 1]) (.syncRequest "B") =
      [⟨"B", "r", .syncResponse ""
          ([⟨"A", "alice", "#FF6B6B", none⟩, ⟨"B", "bob", "#4ECDC4", none⟩])⟩] :=
  ⟨(broadcast_scope_rule [.connect "A", .connect "B", .joinRoom "A" "r" "f" "alice" 0,
        .joinRoom "B" "r" "f" "bob" 1] (by decide)).2.1 "A" "x" 7
      ⟨"A", some "r", some ⟨"A", "alice", "#FF6B6B", none⟩, ["r"]⟩ "r"
      ⟨"r", "f", [("A", ⟨"A", "alice", "#FF6B6B", none⟩),
                  ("B", ⟨"B", "bob", "#4ECDC4", none⟩)], ""⟩
      (by decide) (by decide) (by decide),
   (broadcast_scope_rule [.connect "A", .connect "B", .joinRoom "A" "r" "f" "alice" 0,
        .joinRoom "B" "r" "f" "bob" 1] (by decide)).2.2.2.2.1 "B"
      ⟨"B", some "r", some ⟨"B", "bob", "#4ECDC4", none⟩, ["r"]⟩ "r"
      ⟨"r", "f", [("A", ⟨"A", "alice", "#FF6B6B", none⟩),
                  ("B", ⟨"B", "bob", "#4ECDC4", none⟩)], ""⟩
      (by decide) (by decide) (by decide)⟩

/-! ### C4: participant lists against the specification's membership -/

/-- The users list carried by a payload, when it has one. -/
def Payload.usersList : Payload → Option (List CollabUser)
  | .userJoined _ us => some us
  | .syncResponse _ us => some us
  | .userLeft _ us => some us
  | _ => none

/-- Modelled from the spec (§8, first testable property): the reference
membership — each participant is mapped to the room it has joined and not
yet left or disconnected.  This definition follows the spec's words, not
the source, and is the yardstick the implementation is compared against. -/
def specStep (m : List (String × String)) (e : Event) : List (String × String) :=
  match e with
  | .joinRoom cid rid _ _ _ => alSet cid rid m
  | .leaveRoomEv cid => alDelete cid m
  | .disconnect cid => alDelete cid m
  | _ => m

/-- Modelled from the spec: membership after a trace. -/
def specMembership (evs : List Event) : List (String × String) :=
  evs.foldl specStep []

/-- Modelled from the spec: the participants of room `rid` — joined and
not yet left or disconnected. -/
def specMembers (evs : List Event) (rid : String) : List String :=
  ((specMembership evs).filter (fun q => q.2 == rid)).map Prod.fst

/-- Is `cid` recorded in some room other than `rid`? -/
def memberOfOther (s : RelayState) (cid rid : String) : Bool :=
  s.rooms.any (fun pr => pr.1 != rid && (alLookup cid pr.2.users).isSome)

/-- The well-formedness restriction of the amended C4: a join event only
from a live connection not currently recorded in a different room (the
usage pattern the spec's own open question in §9 flags as ambiguous
otherwise). -/
def wfStep (s : RelayState) (e : Event) : Bool :=
  match e with
  | .joinRoom cid rid _ _ _ => (findConn cid s.conns).isSome && !(memberOfOther s cid rid)
  | _ => true

/-- `wfStep` along a whole trace. -/
def wfTrace : RelayState → List Event → Bool
  | _, [] => true
  | s, e :: rest => wfStep s e && wfTrace (step1 s e) rest

/-- Correspondence between the relay state and the spec membership map:
every recorded participant is mapped to its room and backed by a live
connection whose closure points at that room, and every mapped participant
is recorded in its room. -/
def Corr (s : RelayState) (m : List (String × String)) : Prop :=
  (∀ rid rm, alLookup rid s.rooms = some rm → ∀ p ∈ rm.users,
      alLookup p.1 m = some rid ∧
      ∃ cn, findConn p.1 s.conns = some cn ∧ cn.currentRoomId = some rid ∧
        cn.currentUser.isSome = true) ∧
  (∀ q ∈ m, ∃ rm, alLookup q.2 s.rooms = some rm ∧
      (alLookup q.1 rm.users).isSome = true)

theorem findConn_append_of_some {x : String} {cs ds : List Conn} {cn : Conn}
    (h : findConn x cs = some cn) : findConn x (cs ++ ds) = some cn := by
  unfold findConn at *
  induction cs with
  | nil => simp [List.find?] at h
  | cons c t ih =>
    rw [List.cons_append]
    by_cases hb : (c.sockId == x) = true
    · rw [@List.find?_cons_of_pos Conn (fun cn => cn.sockId == x) c t hb] at h
      rw [@List.find?_cons_of_pos Conn (fun cn => cn.sockId == x) c (t ++ ds) hb]
      exact h
    · rw [@List.find?_cons_of_neg Conn (fun cn => cn.sockId == x) c t hb] at h
      rw [@List.find?_cons_of_neg Conn (fun cn => cn.sockId == x) c (t ++ ds) hb]
      exact ih h

theorem findConn_updateConn_self {cid : String} {cs : List Conn} {cn : Conn}
    (f : Conn → Conn) (hid : ∀ c, (f c).sockId = c.sockId)
    (h : findConn cid cs = some cn) :
    findConn cid (updateConn cid f cs) = some (f cn) := by
  unfold findConn updateConn at *
  induction cs with
  | nil => simp [List.find?] at h
  | cons c t ih =>
    rw [List.map_cons]
    by_cases hb : (c.sockId == cid) = true
    · rw [if_pos hb]
      rw [@List.find?_cons_of_pos Conn (fun cn => cn.sockId == cid) c t hb] at h
      cases h
      rw [@List.find?_cons_of_pos Conn (fun x => x.sockId == cid) (f cn)
        (List.map _ t) (by show ((f cn).sockId == cid) = true; rw [hid]; exact hb)]
    · rw [if_neg hb]
      rw [@List.find?_cons_of_neg Conn (fun cn => cn.sockId == cid) c t hb] at h
      rw [@List.find?_cons_of_neg Conn (fun cn => cn.sockId == cid) c (List.map _ t) hb]
      exact ih h

theorem findConn_updateConn_other {x cid : String} {cs : List Conn}
    (f : Conn → Conn) (hid : ∀ c, (f c).sockId = c.sockId) (h : x ≠ cid) :
    findConn x (updateConn cid f cs) = findConn x cs := by
  unfold findConn updateConn
  induction cs with
  | nil => simp
  | cons c t ih =>
    rw [List.map_cons]
    by_cases hb : c.sockId = cid
    · rw [if_pos (by simp [hb])]
      have h1 : ((f c).sockId == x) = false := by
        rw [hid]
        simp [hb]
        exact fun he => h he.symm
      have h2 : (c.sockId == x) = false := by
        simp [hb]
        exact fun he => h he.symm
      rw [@List.find?_cons_of_neg Conn (fun cn => cn.sockId == x) (f c)
        (List.map _ t) (by simp [h1])]
      rw [@List.find?_cons_of_neg Conn (fun cn => cn.sockId == x) c t (by simp [h2])]
      exact ih
    · rw [if_neg (by simp [hb])]
      by_cases hx : (c.sockId == x) = true
      · rw [@List.find?_cons_of_pos Conn (fun cn => cn.sockId == x) c (List.map _ t) hx]
        rw [@List.find?_cons_of_pos Conn (fun cn => cn.sockId == x) c t hx]
      · rw [@List.find?_cons_of_neg Conn (fun cn => cn.sockId == x) c (List.map _ t) hx]
        rw [@List.find?_cons_of_neg Conn (fun cn => cn.sockId == x) c t hx]
        exact ih

theorem findConn_filter_ne {x cid : String} {cs : List Conn} (h : x ≠ cid) :
    findConn x (cs.filter (fun c => c.sockId != cid)) = findConn x cs := by
  unfold findConn
  induction cs with
  | nil => simp
  | cons c t ih =>
    by_cases hb : c.sockId = cid
    · have h2 : (c.sockId == x) = false := by
        simp [hb]
        exact fun he => h he.symm
      rw [List.filter_cons_of_neg (by simp [hb])]
      rw [@List.find?_cons_of_neg Conn (fun cn => cn.sockId == x) c t (by simp [h2])]
      exact ih
    · rw [List.filter_cons_of_pos (by simp [hb])]
      by_cases hx : (c.sockId == x) = true
      · rw [@List.find?_cons_of_pos Conn (fun cn => cn.sockId == x) c (List.filter _ t) hx]
        rw [@List.find?_cons_of_pos Conn (fun cn => cn.sockId == x) c t hx]
      · rw [@List.find?_cons_of_neg Conn (fun cn => cn.sockId == x) c (List.filter _ t) hx]
        rw [@List.find?_cons_of_neg Conn (fun cn => cn.sockId == x) c t hx]
        exact ih

theorem memberOfOther_false {s : RelayState} {cid rid : String}
    (h : memberOfOther s cid rid = false) :
    ∀ rid' rm, rid' ≠ rid → alLookup rid' s.rooms = some rm →
      alLookup cid rm.users = none := by
  intro rid' rm hne hl
  have hmem := mem_keys_of_alLookup hl
  unfold memberOfOther at h
  rw [List.any_eq_false] at h
  have := h (rid', rm) hmem
  simp only [Bool.and_eq_true, bne_iff_ne, Bool.not_eq_true] at this
  cases ho : alLookup cid rm.users with
  | none => rfl
  | some v =>
    exfalso
    apply this
    constructor
    · simpa using hne
    · simp [ho]

theorem mem_alDelete_parts {α : Type} {p : String × α} {k : String} {l : List (String × α)}
    (h : p ∈ alDelete k l) : p ∈ l ∧ p.1 ≠ k := by
  have h1 := List.mem_filter.mp h
  refine ⟨h1.1, ?_⟩
  have := h1.2
  simpa using this

theorem findConn_leaveRoomFn_other {s : RelayState} {cid rid0 x : String}
    (h : x ≠ cid) :
    findConn x (leaveRoomFn s cid rid0).1.conns = findConn x s.conns := by
  rw [leaveRoomFn_conns]
  exact findConn_updateConn_other
    (fun cn => { cn with joinedRooms := cn.joinedRooms.filter (fun y => y != rid0) })
    (fun c => rfl) h

theorem corr_delete_of_not_inroom (s : RelayState) (m : List (String × String))
    (cid : String) (hc : Corr s m)
    (hno : ∀ cn2, findConn cid s.conns = some cn2 →
      ∀ rid, cn2.currentRoomId = some rid → cn2.currentUser.isSome = true → False) :
    Corr s (alDelete cid m) := by
  constructor
  · intro rid rm hm p hp
    obtain ⟨hm1, cn2, hf2, hr2, hu2⟩ := hc.1 rid rm hm p hp
    by_cases hp1 : p.1 = cid
    · exfalso
      rw [hp1] at hf2
      exact hno cn2 hf2 rid hr2 hu2
    · refine ⟨?_, cn2, hf2, hr2, hu2⟩
      rw [alLookup_alDelete_ne cid p.1 m (fun he => hp1 he.symm)]
      exact hm1
  · intro q hq
    exact hc.2 q (mem_alDelete_parts hq).1

theorem corr_no_cid (s2 : RelayState) (m : List (String × String)) (cid : String)
    (hc2 : Corr s2 (alDelete cid m)) :
    ∀ rid rm, alLookup rid s2.rooms = some rm → alLookup cid rm.users = none := by
  intro rid rm hl
  cases ho : alLookup cid rm.users with
  | none => rfl
  | some v =>
    have h1 := (hc2.1 rid rm hl (cid, v) (mem_keys_of_alLookup ho)).1
    rw [alLookup_alDelete_self] at h1
    cases h1

theorem corr_drop_conn (s2 : RelayState) (m2 : List (String × String)) (cid : String)
    (hc2 : Corr s2 m2)
    (hnocid : ∀ rid rm, alLookup rid s2.rooms = some rm → alLookup cid rm.users = none) :
    Corr ⟨s2.rooms, s2.conns.filter (fun c => c.sockId != cid)⟩ m2 := by
  constructor
  · intro rid rm hm p hp
    obtain ⟨hm1, cn2, hf2, hr2, hu2⟩ := hc2.1 rid rm hm p hp
    have hp1 : p.1 ≠ cid := by
      intro he
      have hs := alLookup_isSome_of_mem (show (cid, p.2) ∈ rm.users from he ▸ hp)
      rw [hnocid rid rm hm] at hs
      simp at hs
    refine ⟨hm1, cn2, ?_, hr2, hu2⟩
    show findConn p.1 (s2.conns.filter (fun c => c.sockId != cid)) = some cn2
    rw [findConn_filter_ne hp1]
    exact hf2
  · intro q hq
    exact hc2.2 q hq

theorem corr_leaveRoomFn (s : RelayState) (cid rid0 : String)
    (m : List (String × String)) (cn : Conn) (u : CollabUser)
    (hf : findConn cid s.conns = some cn) (hr : cn.currentRoomId = some rid0)
    (hu : cn.currentUser = some u) (hc : Corr s m) :
    Corr (leaveRoomFn s cid rid0).1 (alDelete cid m) := by
  constructor
  · intro rid' rm' hm p hp
    have key : (alLookup rid' s.rooms = some rm' ∧ p ∈ rm'.users ∧
        (rid' = rid0 → p.1 ≠ cid → True)) ∨
        (rid' = rid0 ∧ ∃ rmOld, alLookup rid0 s.rooms = some rmOld ∧
          rm' = { rmOld with users := alDelete cid rmOld.users } ∧ p ∈ rm'.users) := by
      unfold leaveRoomFn at hm
      cases hl0 : alLookup rid0 s.rooms with
      | none =>
        simp only [hl0] at hm
        exact Or.inl ⟨hm, hp, fun _ _ => trivial⟩
      | some rmOld =>
        simp only [hl0] at hm
        by_cases hemp : (alDelete cid rmOld.users).isEmpty
        · rw [if_pos hemp] at hm
          exact Or.inl ⟨(alLookup_alDelete_cases hm).2, hp, fun _ _ => trivial⟩
        · rw [if_neg hemp] at hm
          rcases alLookup_alSet_cases hm with ⟨heq, hrm⟩ | ⟨_, hm'⟩
          · exact Or.inr ⟨heq, rmOld, rfl, hrm, hp⟩
          · exact Or.inl ⟨hm', hp, fun _ _ => trivial⟩
    rcases key with ⟨hm', hp', _⟩ | ⟨heq, rmOld, hl0, hrm, hp'⟩
    · obtain ⟨hm1, cn2, hf2, hr2, hu2⟩ := hc.1 rid' rm' hm' p hp'
      by_cases hp1 : p.1 = cid
      · exfalso
        rw [hp1, hf] at hf2
        cases hf2
        rw [hr] at hr2
        cases hr2
        -- p is in room rid0 of the pre state, but in this branch the entry
        -- that survives is never the cid entry of rid0
        -- derive: rid' = rid0, so the leave removed the cid entry or the
        -- room; contradiction with how key was built
        unfold leaveRoomFn at hm
        rw [hm'] at hm
        simp only at hm
        by_cases hemp : (alDelete cid rm'.users).isEmpty
        · rw [if_pos hemp] at hm
          rw [alLookup_alDelete_self] at hm
          cases hm
        · rw [if_neg hemp] at hm
          rw [alLookup_alSet_self] at hm
          have h2 : rm' = { rm' with users := alDelete cid rm'.users } :=
            (Option.some_inj.mp hm).symm
          have h3 : rm'.users = alDelete cid rm'.users := congrArg Room.users h2
          have h4 := alLookup_isSome_of_mem (show (cid, p.2) ∈ rm'.users from hp1 ▸ hp')
          rw [h3, alLookup_alDelete_self] at h4
          simp at h4
      · refine ⟨?_, cn2, ?_, hr2, hu2⟩
        · rw [alLookup_alDelete_ne cid p.1 m (fun he => hp1 he.symm)]
          exact hm1
        · rw [findConn_leaveRoomFn_other hp1]
          exact hf2
    · subst heq
      rw [hrm] at hp'
      obtain ⟨hpm, hp1⟩ := mem_alDelete_parts hp'
      obtain ⟨hm1, cn2, hf2, hr2, hu2⟩ := hc.1 rid' rmOld hl0 p hpm
      refine ⟨?_, cn2, ?_, hr2, hu2⟩
      · rw [alLookup_alDelete_ne cid p.1 m (fun he => hp1 he.symm)]
        exact hm1
      · rw [findConn_leaveRoomFn_other hp1]
        exact hf2
  · intro q hq
    obtain ⟨hqm, hq1⟩ := mem_alDelete_parts hq
    obtain ⟨rm0, hl02, hs0⟩ := hc.2 q hqm
    unfold leaveRoomFn
    cases hl0 : alLookup rid0 s.rooms with
    | none => exact ⟨rm0, hl02, hs0⟩
    | some rmOld =>
      simp only
      by_cases hemp : (alDelete cid rmOld.users).isEmpty
      · rw [if_pos hemp]
        by_cases hq2 : q.2 = rid0
        · exfalso
          rw [hq2, hl0] at hl02
          cases hl02
          rw [List.isEmpty_iff] at hemp
          rw [alLookup_none_of_alDelete_nil hemp hq1] at hs0
          simp at hs0
        · refine ⟨rm0, ?_, hs0⟩
          show alLookup q.2 (alDelete rid0 s.rooms) = some rm0
          rw [alLookup_alDelete_ne rid0 q.2 s.rooms (fun he => hq2 he.symm)]
          exact hl02
      · rw [if_neg hemp]
        by_cases hq2 : q.2 = rid0
        · rw [hq2, hl0] at hl02
          cases hl02
          refine ⟨{ rm0 with users := alDelete cid rm0.users }, ?_, ?_⟩
          · rw [hq2]
            exact alLookup_alSet_self _ _ _
          · show (alLookup q.1 (alDelete cid rm0.users)).isSome = true
            rw [alLookup_alDelete_ne cid q.1 rm0.users (fun he => hq1 he.symm)]
            exact hs0
        · refine ⟨rm0, ?_, hs0⟩
          show alLookup q.2 (alSet rid0 _ s.rooms) = some rm0
          rw [alLookup_alSet_ne rid0 q.2 _ s.rooms (fun he => hq2 he.symm)]
          exact hl02

theorem joinRoomFn_rooms (s : RelayState) (cid rid fid uname : String) (k : Nat) :
    (joinRoomFn s cid rid fid uname k).1.rooms =
      alSet rid
        { joinBase s rid fid with
          users := alSet cid (joinUser cid uname k) (joinBase s rid fid).users }
        s.rooms := rfl

theorem cursorMoveFn_rooms (s : RelayState) (cid : String) (u : CollabUser)
    (line col : Nat) (rid0 : String) :
    (cursorMoveFn s cid u line col rid0).1.rooms =
      (match alLookup rid0 s.rooms with
       | some rm =>
         match alLookup cid rm.users with
         | some entry =>
           alSet rid0
             { rm with users := alSet cid { entry with cursor := some (line, col) } rm.users }
             s.rooms
         | none => s.rooms
       | none => s.rooms) := rfl

theorem disconnectFn_noroom (s : RelayState) (cid : String) (cn : Conn)
    (hr : cn.currentRoomId = none) :
    disconnectFn s cid cn =
      ({ s with conns := s.conns.filter (fun c => c.sockId != cid) }, []) := by
  simp [disconnectFn, hr]

theorem disconnectFn_nouser (s : RelayState) (cid : String) (cn : Conn) (rid0 : String)
    (hr : cn.currentRoomId = some rid0) (hu : cn.currentUser = none) :
    disconnectFn s cid cn =
      ({ s with conns := s.conns.filter (fun c => c.sockId != cid) }, []) := by
  simp [disconnectFn, hr, hu]

theorem disconnectFn_inroom (s : RelayState) (cid : String) (cn : Conn) (rid0 : String)
    (u : CollabUser) (hr : cn.currentRoomId = some rid0) (hu : cn.currentUser = some u) :
    disconnectFn s cid cn =
      ({ (leaveRoomFn s cid rid0).1 with
          conns := (leaveRoomFn s cid rid0).1.conns.filter (fun c => c.sockId != cid) },
        (leaveRoomFn s cid rid0).2) := by
  simp [disconnectFn, hr, hu]

theorem findConn_joinRoomFn_other {s : RelayState} {cid rid fid uname : String} {k : Nat}
    {x : String} (h : x ≠ cid) :
    findConn x (joinRoomFn s cid rid fid uname k).1.conns = findConn x s.conns := by
  rw [joinRoomFn_conns]
  exact findConn_updateConn_other
    (fun cn => { cn with currentRoomId := some rid,
                         currentUser := some (joinUser cid uname k),
                         joinedRooms :=
                           if cn.joinedRooms.contains rid then cn.joinedRooms
                           else cn.joinedRooms ++ [rid] }) (fun c => rfl) h

theorem findConn_joinRoomFn_self {s : RelayState} {cid rid fid uname : String} {k : Nat}
    {cn : Conn} (hf : findConn cid s.conns = some cn) :
    findConn cid (joinRoomFn s cid rid fid uname k).1.conns =
      some { cn with currentRoomId := some rid,
                     currentUser := some (joinUser cid uname k),
                     joinedRooms :=
                       if cn.joinedRooms.contains rid then cn.joinedRooms
                       else cn.joinedRooms ++ [rid] } := by
  rw [joinRoomFn_conns]
  exact findConn_updateConn_self
    (fun cn => { cn with currentRoomId := some rid,
                         currentUser := some (joinUser cid uname k),
                         joinedRooms :=
                           if cn.joinedRooms.contains rid then cn.joinedRooms
                           else cn.joinedRooms ++ [rid] }) (fun c => rfl) hf

theorem findConn_cursorMoveFn_other {s : RelayState} {cid : String} {u : CollabUser}
    {line col : Nat} {rid0 x : String} (h : x ≠ cid) :
    findConn x (cursorMoveFn s cid u line col rid0).1.conns = findConn x s.conns := by
  rw [cursorMoveFn_conns]
  exact findConn_updateConn_other
    (fun c => { c with currentUser := some { u with cursor := some (line, col) } })
    (fun c => rfl) h

theorem findConn_cursorMoveFn_self {s : RelayState} {cid : String} {u : CollabUser}
    {line col : Nat} {rid0 : String} {cn : Conn} (hf : findConn cid s.conns = some cn) :
    findConn cid (cursorMoveFn s cid u line col rid0).1.conns =
      some { cn with currentUser := some { u with cursor := some (line, col) } } := by
  rw [cursorMoveFn_conns]
  exact findConn_updateConn_self
    (fun c => { c with currentUser := some { u with cursor := some (line, col) } })
    (fun c => rfl) hf

theorem corr_step (s : RelayState) (e : Event) (m : List (String × String))
    (hwf : wfStep s e = true) (hc : Corr s m) :
    Corr (step1 s e) (specStep m e) := by
  cases e with
  | connect cid =>
    simp only [specStep]
    cases hf : findConn cid s.conns with
    | some cn =>
      rw [step1, relayStep_connect_live (by rw [hf]; rfl)]
      exact hc
    | none =>
      rw [step1, relayStep_connect_fresh hf]
      constructor
      · intro rid rm hm p hp
        obtain ⟨hm1, cn2, hf2, hr2, hu2⟩ := hc.1 rid rm hm p hp
        exact ⟨hm1, cn2, findConn_append_of_some hf2, hr2, hu2⟩
      · intro q hq
        exact hc.2 q hq
  | joinRoom cid rid fid uname k =>
    simp only [wfStep, Bool.and_eq_true] at hwf
    obtain ⟨hfS, hmo'⟩ := hwf
    have hmo : memberOfOther s cid rid = false := by simpa using hmo'
    rcases Option.isSome_iff_exists.mp hfS with ⟨cn, hf⟩
    rw [step1, relayStep_join hf]
    simp only [specStep]
    constructor
    · intro rid' rm' hm p hp
      rw [joinRoomFn_rooms] at hm
      rcases alLookup_alSet_cases hm with ⟨heq, hrm⟩ | ⟨hne, hm'⟩
      · subst heq
        subst hrm
        have hp2 : p ∈ alSet cid (joinUser cid uname k) (joinBase s rid' fid).users := hp
        by_cases hp1 : p.1 = cid
        · rw [hp1]
          refine ⟨alLookup_alSet_self _ _ _,
            { cn with currentRoomId := some rid',
                      currentUser := some (joinUser cid uname k),
                      joinedRooms :=
                        if cn.joinedRooms.contains rid' then cn.joinedRooms
                        else cn.joinedRooms ++ [rid'] },
            findConn_joinRoomFn_self hf, rfl, rfl⟩
        · have hpb : p ∈ (joinBase s rid' fid).users := by
            rcases mem_alSet hp2 with h1 | h1
            · exact absurd (congrArg Prod.fst h1) hp1
            · exact h1
          cases hl : alLookup rid' s.rooms with
          | none =>
            exfalso
            have hje : joinBase s rid' fid = ⟨rid', fid, [], ""⟩ := by simp [joinBase, hl]
            rw [hje] at hpb
            simp at hpb
          | some rmOld =>
            have hje : joinBase s rid' fid = rmOld := by simp [joinBase, hl]
            rw [hje] at hpb
            obtain ⟨hm1, cn2, hf2, hr2, hu2⟩ := hc.1 rid' rmOld hl p hpb
            refine ⟨?_, cn2, ?_, hr2, hu2⟩
            · rw [alLookup_alSet_ne cid p.1 rid' m (fun he => hp1 he.symm)]
              exact hm1
            · rw [findConn_joinRoomFn_other hp1]
              exact hf2
      · obtain ⟨hm1, cn2, hf2, hr2, hu2⟩ := hc.1 rid' rm' hm' p hp
        by_cases hp1 : p.1 = cid
        · exfalso
          have hnone := memberOfOther_false hmo rid' rm' hne hm'
          have hsome := alLookup_isSome_of_mem
            (show (cid, p.2) ∈ rm'.users by rw [← hp1]; exact hp)
          rw [hnone] at hsome
          simp at hsome
        · refine ⟨?_, cn2, ?_, hr2, hu2⟩
          · rw [alLookup_alSet_ne cid p.1 rid m (fun he => hp1 he.symm)]
            exact hm1
          · rw [findConn_joinRoomFn_other hp1]
            exact hf2
    · intro q hq
      rcases mem_alSet hq with h1 | h1
      · subst h1
        rw [joinRoomFn_rooms]
        refine ⟨_, alLookup_alSet_self _ _ _, ?_⟩
        show (alLookup cid (alSet cid (joinUser cid uname k) (joinBase s rid fid).users)).isSome = true
        rw [alLookup_alSet_self]
        rfl
      · obtain ⟨rm0, hl0, hs0⟩ := hc.2 q h1
        rw [joinRoomFn_rooms]
        by_cases hq1 : q.1 = cid
        · by_cases hq2 : q.2 = rid
          · rw [hq2]
            refine ⟨_, alLookup_alSet_self _ _ _, ?_⟩
            show (alLookup q.1 (alSet cid (joinUser cid uname k) (joinBase s rid fid).users)).isSome = true
            rw [hq1, alLookup_alSet_self]
            rfl
          · exfalso
            have hnone := memberOfOther_false hmo q.2 rm0 hq2 hl0
            rw [hq1, hnone] at hs0
            simp at hs0
        · by_cases hq2 : q.2 = rid
          · have hl0' : alLookup rid s.rooms = some rm0 := by rw [← hq2]; exact hl0
            have hbe : joinBase s rid fid = rm0 := by simp [joinBase, hl0']
            rw [hq2]
            refine ⟨_, alLookup_alSet_self _ _ _, ?_⟩
            show (alLookup q.1 (alSet cid (joinUser cid uname k) (joinBase s rid fid).users)).isSome = true
            rw [alLookup_alSet_ne cid q.1 _ _ (fun he => hq1 he.symm), hbe]
            exact hs0
          · refine ⟨rm0, ?_, hs0⟩
            rw [alLookup_alSet_ne rid q.2 _ s.rooms (fun he => hq2 he.symm)]
            exact hl0
  | leaveRoomEv cid =>
    simp only [specStep]
    cases hf : findConn cid s.conns with
    | none =>
      rw [step1, relayStep_leave_unknown hf]
      refine corr_delete_of_not_inroom s m cid hc ?_
      intro cn2 hf2 rid hr2 hu2
      rw [hf] at hf2
      cases hf2
    | some cn =>
      cases hr : cn.currentRoomId with
      | none =>
        rw [step1, relayStep_leave_noroom hf hr]
        refine corr_delete_of_not_inroom s m cid hc ?_
        intro cn2 hf2 rid hr2 hu2
        rw [hf] at hf2
        have he : cn2 = cn := (Option.some_inj.mp hf2).symm
        rw [he, hr] at hr2
        cases hr2
      | some rid0 =>
        cases hu : cn.currentUser with
        | none =>
          rw [step1, relayStep_leave_nouser hf hr hu]
          refine corr_delete_of_not_inroom s m cid hc ?_
          intro cn2 hf2 rid hr2 hu2
          rw [hf] at hf2
          have he : cn2 = cn := (Option.some_inj.mp hf2).symm
          rw [he, hu] at hu2
          simp at hu2
        | some u =>
          rw [step1, relayStep_leave hf hr hu]
          exact corr_leaveRoomFn s cid rid0 m cn u hf hr hu hc
  | cursorMove cid line col =>
    simp only [specStep]
    cases hf : findConn cid s.conns with
    | none =>
      rw [step1, relayStep_cursor_unknown hf]
      exact hc
    | some cn =>
      cases hr : cn.currentRoomId with
      | none =>
        rw [step1, relayStep_cursor_noroom hf hr]
        exact hc
      | some rid0 =>
        cases hu : cn.currentUser with
        | none =>
          rw [step1, relayStep_cursor_nouser hf hr hu]
          exact hc
        | some u =>
          rw [step1, relayStep_cursor hf hr hu]
          constructor
          · intro rid' rm' hm p hp
            rw [cursorMoveFn_rooms] at hm
            cases hl0 : alLookup rid0 s.rooms with
            | none =>
              simp only [hl0] at hm
              obtain ⟨hm1, cn2, hf2, hr2, hu2⟩ := hc.1 rid' rm' hm p hp
              by_cases hp1 : p.1 = cid
              · rw [hp1] at hf2
                rw [hf] at hf2
                have he : cn2 = cn := (Option.some_inj.mp hf2).symm
                rw [he] at hr2
                refine ⟨hm1, { cn with currentUser := some { u with cursor := some (line, col) } }, ?_, ?_, rfl⟩
                · rw [hp1]
                  exact findConn_cursorMoveFn_self hf
                · show cn.currentRoomId = some rid'
                  exact hr2
              · exact ⟨hm1, cn2, by rw [findConn_cursorMoveFn_other hp1]; exact hf2, hr2, hu2⟩
            | some rm =>
              simp only [hl0] at hm
              cases hcu : alLookup cid rm.users with
              | none =>
                simp only [hcu] at hm
                obtain ⟨hm1, cn2, hf2, hr2, hu2⟩ := hc.1 rid' rm' hm p hp
                by_cases hp1 : p.1 = cid
                · rw [hp1] at hf2
                  rw [hf] at hf2
                  have he : cn2 = cn := (Option.some_inj.mp hf2).symm
                  rw [he] at hr2
                  refine ⟨hm1, { cn with currentUser := some { u with cursor := some (line, col) } }, ?_, ?_, rfl⟩
                  · rw [hp1]
                    exact findConn_cursorMoveFn_self hf
                  · show cn.currentRoomId = some rid'
                    exact hr2
                · exact ⟨hm1, cn2, by rw [findConn_cursorMoveFn_other hp1]; exact hf2, hr2, hu2⟩
              | some entry =>
                simp only [hcu] at hm
                rcases alLookup_alSet_cases hm with ⟨heq, hrm⟩ | ⟨hne, hm'⟩
                · subst heq
                  subst hrm
                  have hp2 : p ∈ alSet cid { entry with cursor := some (line, col) } rm.users := hp
                  by_cases hp1 : p.1 = cid
                  · obtain ⟨hm1, cn2, hf2, hr2, hu2⟩ :=
                      hc.1 rid' rm hl0 (cid, entry) (mem_keys_of_alLookup hcu)
                    rw [hp1]
                    refine ⟨hm1, _, findConn_cursorMoveFn_self hf, ?_, rfl⟩
                    show cn.currentRoomId = some rid'
                    exact hr
                  · have hpb : p ∈ rm.users := by
                      rcases mem_alSet hp2 with h1 | h1
                      · exact absurd (congrArg Prod.fst h1) hp1
                      · exact h1
                    obtain ⟨hm1, cn2, hf2, hr2, hu2⟩ := hc.1 rid' rm hl0 p hpb
                    exact ⟨hm1, cn2, by rw [findConn_cursorMoveFn_other hp1]; exact hf2, hr2, hu2⟩
                · obtain ⟨hm1, cn2, hf2, hr2, hu2⟩ := hc.1 rid' rm' hm' p hp
                  by_cases hp1 : p.1 = cid
                  · rw [hp1] at hf2
                    rw [hf] at hf2
                    have he : cn2 = cn := (Option.some_inj.mp hf2).symm
                    rw [he] at hr2
                    refine ⟨hm1, { cn with currentUser := some { u with cursor := some (line, col) } }, ?_, ?_, rfl⟩
                    · rw [hp1]
                      exact findConn_cursorMoveFn_self hf
                    · show cn.currentRoomId = some rid'
                      exact hr2
                  · exact ⟨hm1, cn2, by rw [findConn_cursorMoveFn_other hp1]; exact hf2, hr2, hu2⟩
          · intro q hq
            obtain ⟨rm0, hl02, hs0⟩ := hc.2 q hq
            rw [cursorMoveFn_rooms]
            cases hl0 : alLookup rid0 s.rooms with
            | none => exact ⟨rm0, hl02, hs0⟩
            | some rm =>
              simp only
              cases hcu : alLookup cid rm.users with
              | none => exact ⟨rm0, hl02, hs0⟩
              | some entry =>
                simp only
                by_cases hq2 : q.2 = rid0
                · have he : rm0 = rm := by
                    rw [hq2, hl0] at hl02
                    exact (Option.some_inj.mp hl02).symm
                  rw [he] at hs0
                  refine ⟨{ rm with users := alSet cid { entry with cursor := some (line, col) } rm.users }, ?_, ?_⟩
                  · rw [hq2]
                    exact alLookup_alSet_self _ _ _
                  · show (alLookup q.1 (alSet cid { entry with cursor := some (line, col) } rm.users)).isSome = true
                    by_cases hq1 : q.1 = cid
                    · rw [hq1, alLookup_alSet_self]
                      rfl
                    · rw [alLookup_alSet_ne cid q.1 _ rm.users (fun he2 => hq1 he2.symm)]
                      exact hs0
                · refine ⟨rm0, ?_, hs0⟩
                  rw [alLookup_alSet_ne rid0 q.2 _ s.rooms (fun he2 => hq2 he2.symm)]
                  exact hl02
  | codeChange cid txt now =>
    simp only [specStep]
    cases hf : findConn cid s.conns with
    | none =>
      rw [step1, relayStep_code_unknown hf]
      exact hc
    | some cn =>
      cases hr : cn.currentRoomId with
      | none =>
        rw [step1, relayStep_code_noroom hf hr]
        exact hc
      | some rid0 =>
        cases hl : alLookup rid0 s.rooms with
        | none =>
          rw [step1, relayStep_code_noentry hf hr hl]
          exact hc
        | some rm =>
          rw [step1, relayStep_code hf hr hl]
          constructor
          · intro rid' rm' hm p hp
            have hm2 : alLookup rid' (alSet rid0 { rm with content := txt } s.rooms) = some rm' := hm
            rcases alLookup_alSet_cases hm2 with ⟨heq, hrm⟩ | ⟨hne, hm'⟩
            · subst heq
              subst hrm
              have hpb : p ∈ rm.users := hp
              obtain ⟨hm1, cn2, hf2, hr2, hu2⟩ := hc.1 rid' rm hl p hpb
              exact ⟨hm1, cn2, hf2, hr2, hu2⟩
            · obtain ⟨hm1, cn2, hf2, hr2, hu2⟩ := hc.1 rid' rm' hm' p hp
              exact ⟨hm1, cn2, hf2, hr2, hu2⟩
          · intro q hq
            obtain ⟨rm0, hl02, hs0⟩ := hc.2 q hq
            by_cases hq2 : q.2 = rid0
            · have he : rm0 = rm := by
                rw [hq2, hl] at hl02
                exact (Option.some_inj.mp hl02).symm
              refine ⟨{ rm with content := txt }, ?_, ?_⟩
              · show alLookup q.2 (alSet rid0 { rm with content := txt } s.rooms) = _
                rw [hq2]
                exact alLookup_alSet_self _ _ _
              · show (alLookup q.1 rm.users).isSome = true
                rw [← he]
                exact hs0
            · refine ⟨rm0, ?_, hs0⟩
              show alLookup q.2 (alSet rid0 { rm with content := txt } s.rooms) = some rm0
              rw [alLookup_alSet_ne rid0 q.2 _ s.rooms (fun he2 => hq2 he2.symm)]
              exact hl02
  | syncRequest cid =>
    simp only [specStep]
    cases hf : findConn cid s.conns with
    | none =>
      rw [step1, relayStep_sync_unknown hf]
      exact hc
    | some cn =>
      cases hr : cn.currentRoomId with
      | none =>
        rw [step1, relayStep_sync_noroom hf hr]
        exact hc
      | some rid0 =>
        cases hl : alLookup rid0 s.rooms with
        | none =>
          rw [step1, relayStep_sync_noentry hf hr hl]
          exact hc
        | some rm =>
          rw [step1, relayStep_sync hf hr hl]
          exact hc
  | disconnect cid =>
    simp only [specStep]
    cases hf : findConn cid s.conns with
    | none =>
      rw [step1, relayStep_disc_unknown hf]
      refine corr_delete_of_not_inroom s m cid hc ?_
      intro cn2 hf2 rid hr2 hu2
      rw [hf] at hf2
      cases hf2
    | some cn =>
      rw [step1, relayStep_disc hf]
      cases hr : cn.currentRoomId with
      | none =>
        rw [disconnectFn_noroom s cid cn hr]
        have hc2 : Corr s (alDelete cid m) := by
          refine corr_delete_of_not_inroom s m cid hc ?_
          intro cn2 hf2 rid hr2 hu2
          rw [hf] at hf2
          have he : cn2 = cn := (Option.some_inj.mp hf2).symm
          rw [he, hr] at hr2
          cases hr2
        exact corr_drop_conn s (alDelete cid m) cid hc2 (corr_no_cid s m cid hc2)
      | some rid0 =>
        cases hu : cn.currentUser with
        | none =>
          rw [disconnectFn_nouser s cid cn rid0 hr hu]
          have hc2 : Corr s (alDelete cid m) := by
            refine corr_delete_of_not_inroom s m cid hc ?_
            intro cn2 hf2 rid hr2 hu2
            rw [hf] at hf2
            have he : cn2 = cn := (Option.some_inj.mp hf2).symm
            rw [he, hu] at hu2
            simp at hu2
          exact corr_drop_conn s (alDelete cid m) cid hc2 (corr_no_cid s m cid hc2)
        | some u =>
          rw [disconnectFn_inroom s cid cn rid0 u hr hu]
          have hc2 : Corr (leaveRoomFn s cid rid0).1 (alDelete cid m) :=
            corr_leaveRoomFn s cid rid0 m cn u hf hr hu hc
          exact corr_drop_conn (leaveRoomFn s cid rid0).1 (alDelete cid m) cid hc2
            (corr_no_cid (leaveRoomFn s cid rid0).1 m cid hc2)

theorem corr_init : Corr relayInit [] := by
  constructor
  · intro rid rm hm
    simp [relayInit, alLookup] at hm
  · intro q hq
    simp at hq

theorem wfTrace_append (evs1 evs2 : List Event) : ∀ s, wfTrace s (evs1 ++ evs2) =
    (wfTrace s evs1 && wfTrace (runFrom s evs1) evs2) := by
  induction evs1 with
  | nil =>
    intro s
    simp [wfTrace, runFrom]
  | cons e rest ih =>
    intro s
    simp only [List.cons_append, wfTrace, runFrom, List.append_eq, ih (step1 s e),
      Bool.and_assoc]

theorem corr_run (evs : List Event) : ∀ (s : RelayState) (m : List (String × String)),
    wfTrace s evs = true → Corr s m →
    Corr (runFrom s evs) (evs.foldl specStep m) := by
  induction evs with
  | nil =>
    intro s m _ hc
    exact hc
  | cons e rest ih =>
    intro s m hwf hc
    simp only [wfTrace, Bool.and_eq_true] at hwf
    exact ih (step1 s e) (specStep m e) hwf.2 (corr_step s e m hwf.1 hc)

theorem specMembership_append (pre : List Event) (e : Event) :
    specMembership (pre ++ [e]) = specStep (specMembership pre) e := by
  simp [specMembership, List.foldl_append]

theorem specStep_keys_nodup (m : List (String × String)) (e : Event)
    (h : (m.map Prod.fst).Nodup) : ((specStep m e).map Prod.fst).Nodup := by
  cases e with
  | joinRoom cid rid fid uname k => exact keys_alSet_nodup h
  | leaveRoomEv cid => exact keys_alDelete_nodup h
  | disconnect cid => exact keys_alDelete_nodup h
  | connect cid => exact h
  | cursorMove cid line col => exact h
  | codeChange cid txt now => exact h
  | syncRequest cid => exact h

theorem specMembership_keys_nodup (evs : List Event) :
    ((specMembership evs).map Prod.fst).Nodup := by
  suffices h : ∀ m, (List.map Prod.fst m).Nodup →
      ((evs.foldl specStep m).map Prod.fst).Nodup by
    exact h [] (by simp)
  induction evs with
  | nil =>
    intro m hm
    exact hm
  | cons e rest ih =>
    intro m hm
    exact ih (specStep m e) (specStep_keys_nodup m e hm)

theorem alLookup_eq_of_mem_nodup {α : Type} {l : List (String × α)}
    (hn : (l.map Prod.fst).Nodup) {k : String} {v : α} (h : (k, v) ∈ l) :
    alLookup k l = some v := by
  induction l with
  | nil => simp at h
  | cons q rest ih =>
    obtain ⟨k', v'⟩ := q
    simp only [List.map_cons, List.nodup_cons] at hn
    rcases List.mem_cons.mp h with h1 | h1
    · rw [Prod.mk.injEq] at h1
      obtain ⟨hk, hv⟩ := h1
      subst hk
      subst hv
      simp [alLookup]
    · have hk : k' ≠ k := by
        intro he
        apply hn.1
        rw [he]
        exact List.mem_map_of_mem Prod.fst h1
      simp only [alLookup, if_neg hk]
      exact ih hn.2 h1

theorem corr_users_iff {s : RelayState} {m : List (String × String)} (hc : Corr s m)
    {rid : String} {rm : Room} (hl : alLookup rid s.rooms = some rm) (x : String) :
    x ∈ rm.users.map Prod.fst ↔ alLookup x m = some rid := by
  constructor
  · intro hx
    rcases List.mem_map.mp hx with ⟨p, hp, hpe⟩
    have h1 := (hc.1 rid rm hl p hp).1
    rw [hpe] at h1
    exact h1
  · intro hx
    have hqm : (x, rid) ∈ m := mem_keys_of_alLookup hx
    obtain ⟨rm', hl', hs'⟩ := hc.2 (x, rid) hqm
    have hl'' : alLookup rid s.rooms = some rm' := hl'
    rw [hl] at hl''
    have he : rm' = rm := (Option.some_inj.mp hl'').symm
    have hs2 : (alLookup x rm'.users).isSome = true := hs'
    rw [he] at hs2
    rcases Option.isSome_iff_exists.mp hs2 with ⟨v, hv⟩
    exact List.mem_map.mpr ⟨(x, v), mem_keys_of_alLookup hv, rfl⟩

theorem mem_alDelete_of_ne {α : Type} {p : String × α} {k : String} {l : List (String × α)}
    (h : p ∈ l) (hne : p.1 ≠ k) : p ∈ alDelete k l :=
  List.mem_filter.mpr ⟨h, by simpa using hne⟩

theorem mem_broadcastTo {cs : List Conn} {roomId sender : String} {p : Payload}
    {msg : Msg} (h : msg ∈ broadcastTo cs roomId sender p) :
    msg.room = roomId ∧ msg.payload = p := by
  unfold broadcastTo at h
  rcases List.mem_map.mp h with ⟨c, hc, he⟩
  rw [← he]
  exact ⟨rfl, rfl⟩

theorem room_users_iff {s : RelayState} {m : List (String × String)}
    (hc : Corr s m) (hinv : RoomsInv s) {rid : String} {rm : Room}
    (hl : alLookup rid s.rooms = some rm) (x : String) :
    x ∈ (rm.users.map Prod.snd).map CollabUser.id ↔ alLookup x m = some rid := by
  have hids : (rm.users.map Prod.snd).map CollabUser.id = rm.users.map Prod.fst := by
    rw [List.map_map]
    refine List.map_congr_left ?_
    intro p hp
    exact (hinv rid rm hl).2.2 p hp
  rw [hids]
  exact corr_users_iff hc hl x

theorem leave_users_iff {s : RelayState} {m : List (String × String)}
    (hc : Corr s m) (hinv : RoomsInv s) {cid rid0 : String} {rmOld : Room}
    (hl : alLookup rid0 s.rooms = some rmOld) (x : String) :
    x ∈ ((alDelete cid rmOld.users).map Prod.snd).map CollabUser.id ↔
      alLookup x (alDelete cid m) = some rid0 := by
  have hids : ((alDelete cid rmOld.users).map Prod.snd).map CollabUser.id =
      (alDelete cid rmOld.users).map Prod.fst := by
    rw [List.map_map]
    refine List.map_congr_left ?_
    intro p hp
    exact (hinv rid0 rmOld hl).2.2 p (mem_alDelete_subset hp)
  rw [hids]
  constructor
  · intro hx
    rcases List.mem_map.mp hx with ⟨p, hp, hpe⟩
    obtain ⟨hpm, hp1⟩ := mem_alDelete_parts hp
    have h1 := (hc.1 rid0 rmOld hl p hpm).1
    rw [hpe] at h1 hp1
    rw [alLookup_alDelete_ne cid x m (fun he => hp1 he.symm)]
    exact h1
  · intro hx
    obtain ⟨hne, hx'⟩ := alLookup_alDelete_cases hx
    have hxm := (corr_users_iff hc hl x).mpr hx'
    rcases List.mem_map.mp hxm with ⟨p, hp, hpe⟩
    refine List.mem_map.mpr ⟨p, mem_alDelete_of_ne hp ?_, hpe⟩
    rw [hpe]
    exact hne

theorem specMembers_iff {evs : List Event} {rid x : String} :
    x ∈ specMembers evs rid ↔ alLookup x (specMembership evs) = some rid := by
  unfold specMembers
  constructor
  · intro hx
    rcases List.mem_map.mp hx with ⟨q, hq, hqe⟩
    have hqf := List.mem_filter.mp hq
    have hq2 : q.2 = rid := by simpa using hqf.2
    have h1 := alLookup_eq_of_mem_nodup (specMembership_keys_nodup evs)
      (show (q.1, q.2) ∈ specMembership evs from hqf.1)
    rw [hqe] at h1
    rw [hq2] at h1
    exact h1
  · intro hx
    have hqm : (x, rid) ∈ specMembership evs := mem_keys_of_alLookup hx
    exact List.mem_map.mpr ⟨(x, rid), List.mem_filter.mpr ⟨hqm, by simp⟩, rfl⟩

/-- C4 (amended): over any well-formed trace — every join is made by a live
connection that is not still recorded in a different room, the discipline
whose absence §9 flags as an open question — the participant list carried by
every users-bearing payload (`user-joined`, `sync-response`, `user-left`)
equals, as a set of participant ids, exactly the spec's reference membership
of the message's room after the event: the participants that have joined
that room and have not yet left or disconnected.  The original claim's
"even when a connection joins a new room without first leaving" clause is
false of the code (see the counterexample theorem). -/
theorem participant_lists_match_spec (pre : List Event) (e : Event)
    (hwf : wfTrace relayInit (pre ++ [e]) = true) :
    ∀ msg ∈ stepMsgs (relayRun pre) e, ∀ us, msg.payload.usersList = some us →
      ∀ x, (x ∈ us.map CollabUser.id ↔ x ∈ specMembers (pre ++ [e]) msg.room) := by
  have hsplit := hwf
  rw [wfTrace_append pre [e] relayInit, Bool.and_eq_true] at hsplit
  obtain ⟨hwf1, hwf2⟩ := hsplit
  have hstep : wfStep (relayRun pre) e = true := by
    simp only [wfTrace, Bool.and_true] at hwf2
    exact hwf2
  have hc : Corr (relayRun pre) (specMembership pre) :=
    corr_run pre relayInit [] hwf1 corr_init
  have hinv : RoomsInv (relayRun pre) := roomsInv_relayRun pre
  intro msg hmsg us hus x
  rw [specMembers_iff, specMembership_append pre e]
  cases e with
  | connect cid =>
    exfalso
    cases hf : findConn cid (relayRun pre).conns with
    | some cn =>
      rw [stepMsgs, relayStep_connect_live (by rw [hf]; rfl)] at hmsg
      simp at hmsg
    | none =>
      rw [stepMsgs, relayStep_connect_fresh hf] at hmsg
      simp at hmsg
  | joinRoom cid rid fid uname k =>
    have hfS : (findConn cid (relayRun pre).conns).isSome = true := by
      simp only [wfStep, Bool.and_eq_true] at hstep
      exact hstep.1
    rcases Option.isSome_iff_exists.mp hfS with ⟨cn, hf⟩
    rw [stepMsgs, relayStep_join hf, joinRoomFn_msgs] at hmsg
    have hc' : Corr (joinRoomFn (relayRun pre) cid rid fid uname k).1
        (specStep (specMembership pre) (.joinRoom cid rid fid uname k)) := by
      have h1 := corr_step (relayRun pre) (.joinRoom cid rid fid uname k)
        (specMembership pre) hstep hc
      rw [step1, relayStep_join hf] at h1
      exact h1
    have hinv' : RoomsInv (joinRoomFn (relayRun pre) cid rid fid uname k).1 := by
      have h1 := roomsInv_step (relayRun pre) (.joinRoom cid rid fid uname k) hinv
      rw [step1, relayStep_join hf] at h1
      exact h1
    have hlpost : alLookup rid (joinRoomFn (relayRun pre) cid rid fid uname k).1.rooms =
        some { joinBase (relayRun pre) rid fid with
               users := alSet cid (joinUser cid uname k)
                 (joinBase (relayRun pre) rid fid).users } := by
      rw [joinRoomFn_rooms]
      exact alLookup_alSet_self _ _ _
    have hiff := room_users_iff hc' hinv' hlpost x
    rcases List.mem_append.mp hmsg with hmem | hmem
    · obtain ⟨hroom, hpl⟩ := mem_broadcastTo hmem
      rw [hpl] at hus
      simp only [Payload.usersList] at hus
      have hue : us = (alSet cid (joinUser cid uname k)
          (joinBase (relayRun pre) rid fid).users).map Prod.snd :=
        (Option.some_inj.mp hus).symm
      rw [hue, hroom]
      exact hiff
    · have he := List.mem_singleton.mp hmem
      have hus' : Payload.usersList (.syncResponse (joinBase (relayRun pre) rid fid).content
          ((alSet cid (joinUser cid uname k)
            (joinBase (relayRun pre) rid fid).users).map Prod.snd)) = some us := by
        rw [he] at hus
        exact hus
      simp only [Payload.usersList] at hus'
      have hue : us = (alSet cid (joinUser cid uname k)
          (joinBase (relayRun pre) rid fid).users).map Prod.snd :=
        (Option.some_inj.mp hus').symm
      have hroom : msg.room = rid := by rw [he]
      rw [hue, hroom]
      exact hiff
  | leaveRoomEv cid =>
    cases hf : findConn cid (relayRun pre).conns with
    | none =>
      exfalso
      rw [stepMsgs, relayStep_leave_unknown hf] at hmsg
      simp at hmsg
    | some cn =>
      cases hr : cn.currentRoomId with
      | none =>
        exfalso
        rw [stepMsgs, relayStep_leave_noroom hf hr] at hmsg
        simp at hmsg
      | some rid0 =>
        cases hu2 : cn.currentUser with
        | none =>
          exfalso
          rw [stepMsgs, relayStep_leave_nouser hf hr hu2] at hmsg
          simp at hmsg
        | some u =>
          rw [stepMsgs, relayStep_leave hf hr hu2] at hmsg
          cases hl : alLookup rid0 (relayRun pre).rooms with
          | none =>
            exfalso
            rw [leaveRoomFn_msgs_none hl] at hmsg
            simp at hmsg
          | some rmOld =>
            rw [leaveRoomFn_msgs_some hl] at hmsg
            obtain ⟨hroom, hpl⟩ := mem_broadcastTo hmsg
            rw [hpl] at hus
            simp only [Payload.usersList] at hus
            have hue : us = (alDelete cid rmOld.users).map Prod.snd :=
              (Option.some_inj.mp hus).symm
            rw [hue, hroom]
            exact leave_users_iff hc hinv hl x
  | cursorMove cid line col =>
    cases hf : findConn cid (relayRun pre).conns with
    | none =>
      rw [stepMsgs, relayStep_cursor_unknown hf] at hmsg
      simp at hmsg
    | some cn =>
      cases hr : cn.currentRoomId with
      | none =>
        rw [stepMsgs, relayStep_cursor_noroom hf hr] at hmsg
        simp at hmsg
      | some rid0 =>
        cases hu2 : cn.currentUser with
        | none =>
          rw [stepMsgs, relayStep_cursor_nouser hf hr hu2] at hmsg
          simp at hmsg
        | some u =>
          rw [stepMsgs, relayStep_cursor hf hr hu2] at hmsg
          have hmsg' : msg ∈ broadcastTo (relayRun pre).conns rid0 cid
              (.cursorMoved cid line col) := hmsg
          obtain ⟨hroom, hpl⟩ := mem_broadcastTo hmsg'
          rw [hpl] at hus
          simp [Payload.usersList] at hus
  | codeChange cid txt now =>
    cases hf : findConn cid (relayRun pre).conns with
    | none =>
      rw [stepMsgs, relayStep_code_unknown hf] at hmsg
      simp at hmsg
    | some cn =>
      cases hr : cn.currentRoomId with
      | none =>
        rw [stepMsgs, relayStep_code_noroom hf hr] at hmsg
        simp at hmsg
      | some rid0 =>
        cases hl : alLookup rid0 (relayRun pre).rooms with
        | none =>
          rw [stepMsgs, relayStep_code_noentry hf hr hl] at hmsg
          simp at hmsg
        | some rm =>
          rw [stepMsgs, relayStep_code hf hr hl] at hmsg
          have hmsg' : msg ∈ broadcastTo (relayRun pre).conns rid0 cid
              (.codeChanged txt cid now) := hmsg
          obtain ⟨hroom, hpl⟩ := mem_broadcastTo hmsg'
          rw [hpl] at hus
          simp [Payload.usersList] at hus
  | syncRequest cid =>
    cases hf : findConn cid (relayRun pre).conns with
    | none =>
      rw [stepMsgs, relayStep_sync_unknown hf] at hmsg
      simp at hmsg
    | some cn =>
      cases hr : cn.currentRoomId with
      | none =>
        rw [stepMsgs, relayStep_sync_noroom hf hr] at hmsg
        simp at hmsg
      | some rid0 =>
        cases hl : alLookup rid0 (relayRun pre).rooms with
        | none =>
          rw [stepMsgs, relayStep_sync_noentry hf hr hl] at hmsg
          simp at hmsg
        | some rm =>
          rw [stepMsgs, relayStep_sync hf hr hl] at hmsg
          have he : msg = ⟨cid, rid0, .syncResponse rm.content (rm.users.map Prod.snd)⟩ := by
            have hmsg' : msg ∈ [(⟨cid, rid0, .syncResponse rm.content (rm.users.map Prod.snd)⟩ : Msg)] := hmsg
            exact List.mem_singleton.mp hmsg'
          have hus' : Payload.usersList (.syncResponse rm.content (rm.users.map Prod.snd)) =
              some us := by
            rw [he] at hus
            exact hus
          simp only [Payload.usersList] at hus'
          have hue : us = rm.users.map Prod.snd := (Option.some_inj.mp hus').symm
          have hroom : msg.room = rid0 := by rw [he]
          rw [hue, hroom]
          exact room_users_iff hc hinv hl x
  | disconnect cid =>
    cases hf : findConn cid (relayRun pre).conns with
    | none =>
      exfalso
      rw [stepMsgs, relayStep_disc_unknown hf] at hmsg
      simp at hmsg
    | some cn =>
      rw [stepMsgs, relayStep_disc hf] at hmsg
      cases hr : cn.currentRoomId with
      | none =>
        exfalso
        rw [disconnectFn_noroom (relayRun pre) cid cn hr] at hmsg
        simp at hmsg
      | some rid0 =>
        cases hu2 : cn.currentUser with
        | none =>
          exfalso
          rw [disconnectFn_nouser (relayRun pre) cid cn rid0 hr hu2] at hmsg
          simp at hmsg
        | some u =>
          rw [disconnectFn_inroom (relayRun pre) cid cn rid0 u hr hu2] at hmsg
          have hmsg' : msg ∈ (leaveRoomFn (relayRun pre) cid rid0).2 := hmsg
          cases hl : alLookup rid0 (relayRun pre).rooms with
          | none =>
            exfalso
            rw [leaveRoomFn_msgs_none hl] at hmsg'
            simp at hmsg'
          | some rmOld =>
            rw [leaveRoomFn_msgs_some hl] at hmsg'
            obtain ⟨hroom, hpl⟩ := mem_broadcastTo hmsg'
            rw [hpl] at hus
            simp only [Payload.usersList] at hus
            have hue : us = (alDelete cid rmOld.users).map Prod.snd :=
              (Option.some_inj.mp hus).symm
            rw [hue, hroom]
            exact leave_users_iff hc hinv hl x

/-- The trace refuting the original C4 clause: A joins r1, then joins r2
without leaving r1 (the JOIN_ROOM handler never removes A from r1), then
disconnects — the disconnect cleanup only leaves the closure room r2, so
A's record stays in r1 forever; a fresh participant B then joins r1. -/
def c4CexPre : List Event :=
  [.connect "A", .joinRoom "A" "r1" "f" "alice" 0, .joinRoom "A" "r2" "f" "alice" 0,
   .disconnect "A", .connect "B"]

/-- The event whose payloads carry the stale participant. -/
def c4CexEv : Event := .joinRoom "B" "r1" "f" "bob" 1

/-- C4 counterexample to the claim's final clause: when a connection joins a
new room without first leaving, the participant list sent to a later joiner
still carries the departed participant — B's sync payload for r1 lists
ids A and B while the spec's reference membership of r1 is exactly B. -/
theorem participant_lists_stale_counterexample :
    ∃ msg ∈ stepMsgs (relayRun c4CexPre) c4CexEv,
      msg.payload.usersList.map (fun us => us.map CollabUser.id) = some ["A", "B"] ∧
      msg.room = "r1" ∧ specMembers (c4CexPre ++ [c4CexEv]) "r1" = ["B"] := by
  decide

/-- Witness for the amended C4 theorem: a concrete well-formed trace — two
connections joining the same room — satisfies the hypothesis, so the
theorem applies to it. -/
theorem participant_lists_match_spec_witness :
    wfTrace relayInit ([.connect "A", .connect "B", .joinRoom "A" "r" "f" "alice" 0] ++
      [.joinRoom "B" "r" "f" "bob" 1]) = true ∧
    (∀ msg ∈ stepMsgs (relayRun [.connect "A", .connect "B", .joinRoom "A" "r" "f" "alice" 0])
        (.joinRoom "B" "r" "f" "bob" 1), ∀ us, msg.payload.usersList = some us →
      ∀ x, (x ∈ us.map CollabUser.id ↔
        x ∈ specMembers ([.connect "A", .connect "B", .joinRoom "A" "r" "f" "alice" 0] ++
          [.joinRoom "B" "r" "f" "bob" 1]) msg.room)) :=
  ⟨by decide, participant_lists_match_spec
    [.connect "A", .connect "B", .joinRoom "A" "r" "f" "alice" 0]
    (.joinRoom "B" "r" "f" "bob" 1) (by decide)⟩
